import Mathlib

/-!
# Display-compositing backend of egt (`src/kmsscreen.cpp`)

A shallow embedding of the KMS screen code: the buffer rotation of
`KMSScreen` / `KMSOverlayScreen`, the `FlipThread` work queue with its worker
loop, the `FlipJob` callable and the overlay allocator
`KMSScreen::allocate_overlay`.

Conventions of the embedding

* `uint32_t` values are natural numbers; the increment `++m_index` is taken
  modulo `2 ^ 32`.
* A `struct plane_data*` is represented by the record it points to; buffer
  addresses (`void*`) are natural numbers.
* The functions of the display library (`plane_create2`, `plane_fb_map`,
  `plane_set_pos`, `plane_flip`) are not part of the repository: they are
  parameters of the model (`libplanes`) or recorded as calls (`PlaneFlip`).
* The worker thread of `FlipThread` is a step relation: the critical section
  of `run()` and the call `task()` are separate atomic steps which interleave
  freely with `enqueue` and with the destructor setting `m_stop`.

The namespace `egt` holds the run-length image codec of
`src/detail/erawimage.h` and the `ListBox` of `src/list.cpp`.
-/

namespace mui

/-! ## Data model -/

/-- The width of `uint32_t`. -/
def UINT32_MOD : Nat := 2 ^ 32

/-- The constant `NUM_OVERLAY_BUFFERS` of `kmsscreen.cpp`. -/
def NUM_OVERLAY_BUFFERS : Nat := 3

/-- The fields of the display library's `struct plane_data` that
`kmsscreen.cpp` reads: `index`, `bufs`, `buffer_count`, and the position that
`plane_set_pos` stages. -/
structure plane_data where
  index : Int
  bufs : List Nat
  buffer_count : Nat
  x : Int
  y : Int
deriving DecidableEq, Repr

/-- The callable `FlipJob`: the plane and the buffer index captured by its
constructor. -/
structure FlipJob where
  m_plane : plane_data
  m_index : Nat
deriving DecidableEq, Repr

/-- One call `plane_flip(plane, index)` of the display library. -/
structure PlaneFlip where
  plane : plane_data
  index : Nat
deriving DecidableEq, Repr

/-- The body of `FlipJob::operator()`: `plane_flip(m_plane, m_index)`. -/
def FlipJob.call (j : FlipJob) : PlaneFlip :=
  ⟨j.m_plane, j.m_index⟩

/-- The buffer address a flip job presents: `m_plane->bufs[m_index]`
(`none` when the index is outside the buffer array). -/
def FlipJob.buffer (j : FlipJob) : Option Nat :=
  j.m_plane.bufs[j.m_index]?

/-! ## FlipThread -/

/-- Control point of the worker thread inside `FlipThread::run`. -/
inductive WorkerPc where
  /-- At the head of the loop, about to take the lock and test `m_stop` and
  the queue (also: blocked in `m_condition.wait`). -/
  | atCheck
  /-- The lock is released and `task` holds the popped job; `task()` is the
  next statement. -/
  | running (task : FlipJob)
  /-- The statement `return` was executed: the thread has ended. -/
  | exited
deriving DecidableEq, Repr

/-- The state of a `FlipThread`: the members `m_queue` and `m_stop`, the
control point of `m_thread`, and two observation traces: the jobs on which
`task()` was called, in order, and the lines written to `cout`. -/
structure FlipThread where
  m_queue : List FlipJob
  m_stop : Bool
  worker : WorkerPc
  executed : List FlipJob
  cout : List String
deriving DecidableEq, Repr

/-- The constructor `FlipThread()`: `m_stop(false)`, an empty queue, and the
worker started at the head of `run`. -/
def FlipThread.init : FlipThread :=
  { m_queue := [], m_stop := false, worker := WorkerPc.atCheck, executed := [], cout := [] }

/-- The loop `while (m_queue.size() > 1) { cout << ...; m_queue.pop_front(); }`
of `FlipThread::enqueue`. -/
def FlipThread.trim_backlog : List FlipJob → List String → List FlipJob × List String
  | _ :: b :: rest, out =>
      FlipThread.trim_backlog (b :: rest) (out ++ ["too many flip jobs queued"])
  | q, out => (q, out)

/-- The critical section of `FlipThread::enqueue(job)`: `push_back(job)` and
the backlog loop. (`notify_one` only wakes the worker.) -/
def FlipThread.enqueue (t : FlipThread) (job : FlipJob) : FlipThread :=
  let r := FlipThread.trim_backlog (t.m_queue ++ [job]) t.cout
  { t with m_queue := r.1, cout := r.2 }

/-- The critical section of one iteration of `FlipThread::run`, entered at
the head of the loop: with `m_stop` set the thread returns; with an empty
queue it waits (and stays at the head of the loop); otherwise it takes the
front job out of the queue into `task`. -/
def FlipThread.run_locked (t : FlipThread) : FlipThread :=
  match t.worker with
  | WorkerPc.atCheck =>
      if t.m_stop then { t with worker := WorkerPc.exited }
      else
        match t.m_queue with
        | [] => t
        | task :: rest => { t with m_queue := rest, worker := WorkerPc.running task }
  | _ => t

/-- The statement `task();` of `FlipThread::run`, after the lock is released;
the thread then loops. -/
def FlipThread.run_task (t : FlipThread) : FlipThread :=
  match t.worker with
  | WorkerPc.running task =>
      { t with executed := t.executed ++ [task], worker := WorkerPc.atCheck }
  | _ => t

/-- The first statement of `~FlipThread()`: `m_stop = true`. -/
def FlipThread.request_stop (t : FlipThread) : FlipThread :=
  { t with m_stop := true }

/-- The atomic steps on one `FlipThread`. -/
inductive Event where
  | enqueue (job : FlipJob)
  | workerLock
  | workerRun
  | stop
deriving DecidableEq, Repr

/-- One atomic step. -/
def FlipThread.step (t : FlipThread) : Event → FlipThread
  | Event.enqueue job => t.enqueue job
  | Event.workerLock => t.run_locked
  | Event.workerRun => t.run_task
  | Event.stop => t.request_stop

/-- An interleaving: the steps taken one after the other. -/
def FlipThread.steps (t : FlipThread) (es : List Event) : FlipThread :=
  es.foldl FlipThread.step t

/-- The jobs submitted by an interleaving, in submission order. -/
def Event.submitted : List Event → List FlipJob
  | [] => []
  | Event.enqueue job :: es => job :: Event.submitted es
  | _ :: es => Event.submitted es

/-- A step of the worker thread (as opposed to a step of a caller). -/
def Event.isWorker : Event → Bool
  | Event.workerLock => true
  | Event.workerRun => true
  | _ => false

/-- The job held by the worker between `pop_front` and `task()`. -/
def WorkerPc.inflight : WorkerPc → List FlipJob
  | WorkerPc.running task => [task]
  | _ => []

/-- The jobs a `FlipThread` has run, holds in `task`, and holds in its
queue, oldest first. -/
def FlipThread.history (t : FlipThread) : List FlipJob :=
  t.executed ++ t.worker.inflight ++ t.m_queue

/-! ## Screens -/

/-- The members of `KMSOverlayScreen` used by the rotation. -/
structure KMSOverlayScreen where
  m_plane : plane_data
  m_index : Nat
deriving DecidableEq, Repr

/-- The members of `KMSScreen` used by the rotation (primary plane). -/
structure KMSScreen where
  m_plane : plane_data
  m_index : Nat
deriving DecidableEq, Repr

/-- The constructor `KMSOverlayScreen(plane)`: `m_plane(plane), m_index(0)`. -/
def KMSOverlayScreen.create (plane : plane_data) : KMSOverlayScreen :=
  { m_plane := plane, m_index := 0 }

/-- The method `KMSOverlayScreen::index()`. -/
def KMSOverlayScreen.index (s : KMSOverlayScreen) : Nat :=
  s.m_index

/-- The method `KMSScreen::index()`. -/
def KMSScreen.index (s : KMSScreen) : Nat :=
  s.m_index

/-- The method `KMSOverlayScreen::raw()`: `m_plane->bufs[index()]`
(`none` when the read is outside the array). -/
def KMSOverlayScreen.raw (s : KMSOverlayScreen) : Option Nat :=
  s.m_plane.bufs[s.index]?

/-- The statement `if (++m_index >= m_plane->buffer_count) m_index = 0;`
on a `uint32_t` index. -/
def advance_index (m_index buffer_count : Nat) : Nat :=
  let m_index := (m_index + 1) % UINT32_MOD
  if m_index ≥ buffer_count then 0 else m_index

/-- The method `KMSOverlayScreen::schedule_flip()`, on the screen and the
function-local static `pool`. -/
def KMSOverlayScreen.schedule_flip (s : KMSOverlayScreen) (pool : FlipThread) :
    KMSOverlayScreen × FlipThread :=
  let pool := pool.enqueue (FlipJob.mk s.m_plane s.m_index)
  ({ s with m_index := advance_index s.m_index s.m_plane.buffer_count }, pool)

/-- The method `KMSScreen::schedule_flip()`, on the screen and the
function-local static `pool`. -/
def KMSScreen.schedule_flip (s : KMSScreen) (pool : FlipThread) :
    KMSScreen × FlipThread :=
  let pool := pool.enqueue (FlipJob.mk s.m_plane s.m_index)
  ({ s with m_index := advance_index s.m_index s.m_plane.buffer_count }, pool)

/-! ## Overlay allocation -/

/-- The constant `DRM_PLANE_TYPE_OVERLAY` of the DRM headers. -/
def DRM_PLANE_TYPE_OVERLAY : Nat := 0

/-- The class `Size`: the members `w` and `h`. -/
structure Size where
  w : Int
  h : Int
deriving DecidableEq, Repr

/-- The functions of the display library that `allocate_overlay` calls, as
parameters: `plane_create2(device, type, index, width, height, format,
buffer_count)` returns a plane or null (`none`); `plane_fb_map(plane)` and
`plane_set_pos(plane, x, y)` update the plane. The device handle is part of
the parameter. -/
structure libplanes where
  plane_create2 : Nat → Int → Int → Int → Nat → Nat → Option plane_data
  plane_fb_map : plane_data → plane_data
  plane_set_pos : plane_data → Int → Int → plane_data

/-- The loop `for (int index = 0; index < 3; index++)` of
`KMSScreen::allocate_overlay`, over the indices still to visit; `plane` is
the local variable and `used` the function-local static registry. -/
def KMSScreen.allocate_overlay_loop (lib : libplanes) (size : Size) (format : Nat) :
    List Int → Option plane_data → List Int → Option plane_data × List Int
  | [], plane, used => (plane, used)
  | index :: rest, plane, used =>
      if index ∈ used then
        KMSScreen.allocate_overlay_loop lib size format rest plane used
      else
        match lib.plane_create2 DRM_PLANE_TYPE_OVERLAY index size.w size.h format
            NUM_OVERLAY_BUFFERS with
        | some p => (some p, used ++ [index])
        | none => KMSScreen.allocate_overlay_loop lib size format rest none used

/-- The method `KMSScreen::allocate_overlay(size, format)` on the registry
`used`: the returned plane, or `none` when `assert(plane)` fires, and the
registry afterwards. -/
def KMSScreen.allocate_overlay (lib : libplanes) (used : List Int) (size : Size)
    (format : Nat) : Option plane_data × List Int :=
  let r := KMSScreen.allocate_overlay_loop lib size format [0, 1, 2] none used
  match r.1 with
  | none => (none, r.2)
  | some plane => (some (lib.plane_set_pos (lib.plane_fb_map plane) 0 0), r.2)

/-- One call of `allocate_overlay`: its arguments and the behaviour of the
display library during the call. -/
structure AllocCall where
  lib : libplanes
  size : Size
  format : Nat

/-- The registry after a sequence of `allocate_overlay` calls; a call whose
assertion fires ends the process, hence the sequence. -/
def KMSScreen.allocate_overlays : List Int → List AllocCall → List Int
  | used, [] => used
  | used, c :: cs =>
      match KMSScreen.allocate_overlay c.lib used c.size c.format with
      | (some _, used1) => KMSScreen.allocate_overlays used1 cs
      | (none, used1) => used1

/-! ## Concrete inputs -/

/-- A plane with three buffers. -/
def plane3 : plane_data :=
  { index := 0, bufs := [4096, 8192, 12288], buffer_count := 3, x := 0, y := 0 }

/-- A plane with a single buffer. -/
def plane1 : plane_data :=
  { index := 0, bufs := [4096], buffer_count := 1, x := 0, y := 0 }

/-- Five flip jobs on `plane3`. -/
def burst5 : List FlipJob :=
  [⟨plane3, 0⟩, ⟨plane3, 1⟩, ⟨plane3, 2⟩, ⟨plane3, 0⟩, ⟨plane3, 1⟩]

/-- A queue with two pending jobs and the stop flag set, the worker at the
head of its loop. -/
def stopped_with_backlog : FlipThread :=
  { m_queue := [⟨plane3, 0⟩, ⟨plane3, 1⟩], m_stop := true, worker := WorkerPc.atCheck,
    executed := [], cout := [] }

/-- The pixel format code `DRM_FORMAT_XRGB8888`. -/
def DRM_FORMAT_XRGB8888 : Nat := 0x34325258

/-- A display library whose plane creation succeeds for every index. -/
def lib_ok : libplanes :=
  { plane_create2 := fun _ index _ _ _ n =>
      some { index := index, bufs := [], buffer_count := n, x := 0, y := 0 }
    plane_fb_map := fun p => { p with bufs := [4096, 8192, 12288] }
    plane_set_pos := fun p x y => { p with x := x, y := y } }

/-- A display library whose plane creation is refused for index 0 only. -/
def lib_skip0 : libplanes :=
  { lib_ok with
    plane_create2 := fun t index w h f n =>
      if index = 0 then none else lib_ok.plane_create2 t index w h f n }

/-! ## Device, primary screen and plane count -/

/-- The constant `DRM_PLANE_TYPE_PRIMARY` of the DRM headers. -/
def DRM_PLANE_TYPE_PRIMARY : Nat := 1

/-- The constant `NUM_PRIMARY_BUFFERS` of the constructor `KMSScreen`. -/
def NUM_PRIMARY_BUFFERS : Nat := 3

/-- The fields of the display library's `struct kms_screen` that the
constructor reads. -/
structure kms_screen where
  width : Int
  height : Int
deriving DecidableEq, Repr

/-- The field of the display library's `struct kms_plane` that
`count_planes` reads: `type`, an `unsigned int`. -/
structure kms_plane where
  type : Nat
deriving DecidableEq, Repr

/-- The fields of the display library's `struct kms_device` that
`kmsscreen.cpp` reads: `screens` and the array `planes`, whose length is the
field `num_planes`. -/
structure kms_device where
  screens : List kms_screen
  planes : List kms_plane
deriving DecidableEq, Repr

/-- The field `num_planes` of a device. -/
def kms_device.num_planes (d : kms_device) : Nat :=
  d.planes.length

/-- The calls the constructor `KMSScreen` makes besides those of
`libplanes`, as parameters: the descriptor `drmOpen` returns, the device
`kms_device_open(fd)` returns (or null), and `plane_apply(plane)`. -/
structure drm_env where
  drmOpen : Int
  kms_device_open : Int → Option kms_device
  plane_apply : plane_data → plane_data

/-- The constructor `KMSScreen(primary)`: `none` when one of its assertions
fires (or the device has no `screens[0]`). Without `primary` the member
`m_plane` is not initialised; `uninit` stands for its value. -/
def KMSScreen.create (env : drm_env) (lib : libplanes) (primary : Bool)
    (uninit : plane_data) : Option KMSScreen :=
  let m_fd := env.drmOpen
  if m_fd < 0 then none
  else
    match env.kms_device_open m_fd with
    | none => none
    | some m_device =>
      match m_device.screens with
      | [] => none
      | screen0 :: _ =>
        if primary then
          match lib.plane_create2 DRM_PLANE_TYPE_PRIMARY 0 screen0.width screen0.height
              DRM_FORMAT_XRGB8888 NUM_PRIMARY_BUFFERS with
          | none => none
          | some m_plane =>
              some { m_plane := env.plane_apply (lib.plane_fb_map m_plane), m_index := 0 }
        else some { m_plane := uninit, m_index := 0 }

/-- The conversion `(int)` of an `unsigned int`. -/
def int_of_unsigned (v : Nat) : Int :=
  if v % UINT32_MOD < 2 ^ 31 then ((v % UINT32_MOD : Nat) : Int)
  else ((v % UINT32_MOD : Nat) : Int) - 2 ^ 32

/-- The loop of `KMSScreen::count_planes` over `planes[x]`,
`x < num_planes`, with the `uint32_t` counter `total`. -/
def KMSScreen.count_planes_loop (type : Int) : List kms_plane → Nat → Nat
  | [], total => total
  | p :: rest, total =>
      if int_of_unsigned p.type = type then
        KMSScreen.count_planes_loop type rest ((total + 1) % UINT32_MOD)
      else KMSScreen.count_planes_loop type rest total

/-- The method `KMSScreen::count_planes(type)`, on the member `m_device`. -/
def KMSScreen.count_planes (m_device : kms_device) (type : Int) : Nat :=
  KMSScreen.count_planes_loop type m_device.planes 0

/-- The first `k` calls of `KMSScreen::schedule_flip()`. -/
def KMSScreen.schedule_flips : Nat → KMSScreen × FlipThread → KMSScreen × FlipThread
  | 0, st => st
  | k + 1, st =>
      (KMSScreen.schedule_flips k st).1.schedule_flip (KMSScreen.schedule_flips k st).2

/-- The first `k` calls of `KMSOverlayScreen::schedule_flip()`. -/
def KMSOverlayScreen.schedule_flips :
    Nat → KMSOverlayScreen × FlipThread → KMSOverlayScreen × FlipThread
  | 0, st => st
  | k + 1, st =>
      (KMSOverlayScreen.schedule_flips k st).1.schedule_flip
        (KMSOverlayScreen.schedule_flips k st).2

/-- One iteration of the loop of `FlipThread::run`: the critical section,
then `task()`. -/
def FlipThread.run_iteration (t : FlipThread) : FlipThread :=
  t.run_locked.run_task

/-- A display environment with one 800x480 screen and three planes: an
overlay, the primary plane and another overlay. -/
def env_ok : drm_env :=
  { drmOpen := 3
    kms_device_open := fun _ =>
      some { screens := [⟨800, 480⟩], planes := [⟨0⟩, ⟨1⟩, ⟨0⟩] }
    plane_apply := fun p => p }

/-- The screen the constructor builds on `env_ok` and `lib_ok`. -/
def screen_ok : KMSScreen :=
  { m_plane := { index := 0, bufs := [4096, 8192, 12288], buffer_count := 3, x := 0, y := 0 }
    m_index := 0 }

/-- A worker at the head of its loop with two pending jobs. -/
def idle_with_backlog : FlipThread :=
  { m_queue := [⟨plane3, 0⟩, ⟨plane3, 1⟩], m_stop := false, worker := WorkerPc.atCheck,
    executed := [], cout := [] }

end mui

namespace egt

/-! ## Run-length image codec (`src/detail/erawimage.h`)

Pixels are 32-bit words and streams are lists of bytes, both as natural
numbers. The target is little-endian (the `static_assert` of the header), so
the object representation of an integer is its little-endian byte sequence.
The surface that `cairo_image_surface_create` returns is taken to hold
`width * height` words, initially zero; the decoders store words from its
start, in address order, and `stored` records every word they store, whether
it lies inside the surface or past its end. -/

/-- The constant `ErawImage::egt_magic`. -/
def ErawImage.egt_magic : Nat := 0x50502AA2

/-- The object representation of an integer of `k` bytes: its bytes, least
significant first. -/
def le_bytes : Nat → Nat → List Nat
  | 0, _ => []
  | k + 1, v => v % 256 :: le_bytes k (v / 256)

/-- The integer whose object representation starts with the given bytes, the
bytes not given being zero. -/
def le_value : List Nat → Nat
  | [] => 0
  | b :: bs => b + 256 * le_value bs

/-- The 32-bit words that a run of bytes occupies in memory that was zero
before; a last group of fewer than four bytes touches one more word. -/
def words_of_bytes : List Nat → List Nat
  | b0 :: b1 :: b2 :: b3 :: rest => le_value [b0, b1, b2, b3] :: words_of_bytes rest
  | [] => []
  | bs => [le_value bs]

/-- The bytes of a run of 32-bit words in memory. -/
def bytes_of_words (ws : List Nat) : List Nat :=
  ws.flatMap (le_bytes 4)

/-- The function `ErawImage::memset32(data, value, count)` (the portable
variant): the words it stores from `data` on. With four equal bytes in
`value` it is `memset(data, c[0], count * 4)`, else a loop storing `value`. -/
def ErawImage.memset32 (value count : Nat) : List Nat :=
  let c0 := value % 256
  let c1 := value / 256 % 256
  let c2 := value / 65536 % 256
  let c3 := value / 16777216 % 256
  if c0 = c1 ∧ c1 = c2 ∧ c2 = c3 then
    words_of_bytes (List.replicate (count * 4) c0)
  else List.replicate count value

/-- The call `i.read(p, n)` on an input file stream with the bytes `i` left:
the `n` bytes read and the rest, or `none` when fewer than `n` are left. -/
def read (n : Nat) (i : List Nat) : Option (List Nat × List Nat) :=
  if n ≤ i.length then some (i.take n, i.drop n) else none

/-- The function `ErawImage::readw`, reading an integer of `n` bytes at
`buf`: the value and the advanced pointer, or `none` when the read runs past
the end of the buffer. -/
def ErawImage.readw (n : Nat) (buf : List Nat) : Option (Nat × List Nat) :=
  if n ≤ buf.length then some (le_value (buf.take n), buf.drop n) else none

/-- How a loader ends: it returns the surface, it returns `nullptr`, or it
reads past the end of its input buffer (undefined in C++). -/
inductive LoadStatus where
  | complete
  | null
  | overread
deriving DecidableEq, Repr

/-- What a run of a loader did: how it ended, the header dimensions, and the
words it stored from the start of the surface data, in address order. -/
structure Loaded where
  status : LoadStatus
  width : Nat
  height : Nat
  stored : List Nat
deriving DecidableEq, Repr

/-- An image surface: its dimensions and its `width * height` words. -/
structure Surface where
  width : Nat
  height : Nat
  data : List Nat
deriving DecidableEq, Repr

/-- The surface a loader returns: `none` for `nullptr` (and for an undefined
run), else the zero-initialised surface overwritten from its start by the
stored words. -/
def Loaded.surface (r : Loaded) : Option Surface :=
  match r.status with
  | LoadStatus.complete =>
      some { width := r.width, height := r.height,
             data := (r.stored ++ List.replicate (r.width * r.height - r.stored.length) 0).take
               (r.width * r.height) }
  | _ => none

/-- The decoding loop `while (data < end)` of `load(filename)`: `i` is the
rest of the file, `out` the words stored so far (so `data` is at offset
`out.length`) and `n` the offset of `end`. Every iteration reads at least two
bytes, so `fuel = i.length` iterations are never exceeded: with no fuel left
the file is at its end and the next read fails. -/
def ErawImage.load_file_loop : Nat → List Nat → List Nat → Nat → LoadStatus × List Nat
  | 0, _, out, n => (if out.length < n then LoadStatus.null else LoadStatus.complete, out)
  | fuel + 1, i, out, n =>
      if out.length < n then
        match read 2 i with
        | none => (LoadStatus.null, out)
        | some (b, i) =>
            let block := le_value b
            if block &&& 0x8000 ≠ 0 then
              let block := block &&& 0x7fff
              match read 4 i with
              | none => (LoadStatus.null, out)
              | some (v, i) =>
                  ErawImage.load_file_loop fuel i
                    (out ++ ErawImage.memset32 (le_value v) block) n
            else if block ≠ 0 then
              match read (block * 4) i with
              | none => (LoadStatus.null, out ++ words_of_bytes i)
              | some (d, i) => ErawImage.load_file_loop fuel i (out ++ words_of_bytes d) n
            else ErawImage.load_file_loop fuel i out n
      else (LoadStatus.complete, out)

/-- The method `ErawImage::load(filename)` on the content of the file
(`none`: the file cannot be opened). -/
def ErawImage.load_file_run (file : Option (List Nat)) : Loaded :=
  match file with
  | none => ⟨LoadStatus.null, 0, 0, []⟩
  | some i =>
      if le_value (i.take 4) ≠ ErawImage.egt_magic then ⟨LoadStatus.null, 0, 0, []⟩
      else
        match read 4 (i.drop 4) with
        | none => ⟨LoadStatus.null, 0, 0, []⟩
        | some (width, i) =>
        match read 4 i with
        | none => ⟨LoadStatus.null, 0, 0, []⟩
        | some (height, i) =>
        match read 4 i with
        | none => ⟨LoadStatus.null, 0, 0, []⟩
        | some (_, i) =>
        match read 4 i with
        | none => ⟨LoadStatus.null, 0, 0, []⟩
        | some (_, i) =>
        match read 4 i with
        | none => ⟨LoadStatus.null, 0, 0, []⟩
        | some (_, i) =>
        match read 4 i with
        | none => ⟨LoadStatus.null, 0, 0, []⟩
        | some (_, i) =>
            let width := le_value width
            let height := le_value height
            let r := ErawImage.load_file_loop i.length i [] ((width * height) % 2 ^ 32)
            ⟨r.1, width, height, r.2⟩

/-- The surface `ErawImage::load(filename)` returns. -/
def ErawImage.load_file (file : Option (List Nat)) : Option Surface :=
  (ErawImage.load_file_run file).surface

/-- The decoding loop `while (data < end)` of `load(buf, len)`; as
`load_file_loop`, but the reads are not checked: with no fuel left the buffer
is at its end and the next read runs past it. -/
def ErawImage.load_buf_loop : Nat → List Nat → List Nat → Nat → LoadStatus × List Nat
  | 0, _, out, n => (if out.length < n then LoadStatus.overread else LoadStatus.complete, out)
  | fuel + 1, buf, out, n =>
      if out.length < n then
        match ErawImage.readw 2 buf with
        | none => (LoadStatus.overread, out)
        | some (block, buf) =>
            if block &&& 0x8000 ≠ 0 then
              let block := block &&& 0x7fff
              match ErawImage.readw 4 buf with
              | none => (LoadStatus.overread, out)
              | some (value, buf) =>
                  ErawImage.load_buf_loop fuel buf (out ++ ErawImage.memset32 value block) n
            else if block ≠ 0 then
              match read (block * 4) buf with
              | none => (LoadStatus.overread, out ++ words_of_bytes buf)
              | some (d, buf) => ErawImage.load_buf_loop fuel buf (out ++ words_of_bytes d) n
            else ErawImage.load_buf_loop fuel buf out n
      else (LoadStatus.complete, out)

/-- The method `ErawImage::load(buf, len)` on the bytes at `buf`. -/
def ErawImage.load_buf_run (buf : List Nat) (len : Nat) : Loaded :=
  match ErawImage.readw 4 buf with
  | none => ⟨LoadStatus.overread, 0, 0, []⟩
  | some (magic, buf) =>
      if magic ≠ ErawImage.egt_magic then ⟨LoadStatus.null, 0, 0, []⟩
      else
        match ErawImage.readw 4 buf with
        | none => ⟨LoadStatus.overread, 0, 0, []⟩
        | some (width, buf) =>
        match ErawImage.readw 4 buf with
        | none => ⟨LoadStatus.overread, width, 0, []⟩
        | some (height, buf) =>
            let buf := buf.drop 16
            let n := (width * height) % 2 ^ 32
            if n > len then ⟨LoadStatus.null, width, height, []⟩
            else
              let r := ErawImage.load_buf_loop buf.length buf [] n
              ⟨r.1, width, height, r.2⟩

/-- The surface `ErawImage::load(buf, len)` returns. -/
def ErawImage.load_buf (buf : List Nat) (len : Nat) : Option Surface :=
  (ErawImage.load_buf_run buf len).surface

/-- The loop `while (ptr < end && *ptr == value) ptr++` of
`next_same_block`: the number of leading words equal to `value`. -/
def ErawImage.same_run (value : Nat) : List Nat → Nat
  | [] => 0
  | p :: rest => if p = value then ErawImage.same_run value rest + 1 else 0

/-- The function `ErawImage::next_same_block(data, end, value)` on the words
of `[data, end)`: the returned `uint16_t` and the word stored in `value`. -/
def ErawImage.next_same_block (data : List Nat) : Nat × Nat :=
  let window := data.take 0x7fff
  let value := data.headD 0
  let count := ErawImage.same_run value window
  if count ≥ 2 then (count % 65536, value) else (0, value)

/-- The loop of `next_diff_block` from `ptr = data + 1` on: the final
`ptr - data`, on the words of `[data, end)`. -/
def ErawImage.diff_run : List Nat → Nat
  | [] => 1
  | [_] => 1
  | p :: q :: rest => if q = p then 1 else ErawImage.diff_run (q :: rest) + 1

/-- The function `ErawImage::next_diff_block(data, end)` on the words of
`[data, end)`: the returned `uint16_t`. -/
def ErawImage.next_diff_block (data : List Nat) : Nat :=
  ErawImage.diff_run (data.take 0x7fff) % 65536

/-- What one iteration of the loop of `save` writes: a run block (the count
before the flag is set, and the value) or a literal block (the count and the
words copied). -/
inductive Block where
  | run (same : Nat) (value : Nat)
  | literal (diff : Nat) (pixels : List Nat)
deriving DecidableEq, Repr

/-- The number of pixels a block advances `offset` by. -/
def Block.length : Block → Nat
  | Block.run same _ => same
  | Block.literal diff _ => diff

/-- Whether a block is a run block. -/
def Block.isRun : Block → Bool
  | Block.run _ _ => true
  | Block.literal _ _ => false

/-- The pixels a block stands for. -/
def Block.pixels : Block → List Nat
  | Block.run same value => List.replicate same value
  | Block.literal _ pixels => pixels

/-- The 16-bit field a block starts with in the file. -/
def Block.field : Block → Nat
  | Block.run same _ => same ||| 0x8000
  | Block.literal diff _ => diff

/-- The bytes one iteration writes: the `uint16_t` field, then the value of a
run block or the words of a literal block. -/
def Block.bytes : Block → List Nat
  | Block.run same value => le_bytes 2 (same ||| 0x8000) ++ le_bytes 4 value
  | Block.literal diff pixels => le_bytes 2 diff ++ bytes_of_words pixels

/-- The loop `while (offset < end)` of `ErawImage::save` on the words of
`[offset, end)`: the blocks written, or `none` when the loop is still running
after `fuel` iterations. -/
def ErawImage.save_loop : Nat → List Nat → Option (List Block)
  | _, [] => some []
  | 0, _ :: _ => none
  | fuel + 1, p :: rest =>
      let same := ErawImage.next_same_block (p :: rest)
      if same.1 ≠ 0 then
        (ErawImage.save_loop fuel ((p :: rest).drop same.1)).map
          (fun blocks => Block.run same.1 same.2 :: blocks)
      else
        let diff := ErawImage.next_diff_block (p :: rest)
        if diff ≠ 0 then
          (ErawImage.save_loop fuel ((p :: rest).drop diff)).map
            (fun blocks => Block.literal diff ((p :: rest).take diff) :: blocks)
        else ErawImage.save_loop fuel (p :: rest)

/-- The header `save` writes: magic, width, height and four reserved words. -/
def ErawImage.header (width height : Nat) : List Nat :=
  le_bytes 4 ErawImage.egt_magic ++ le_bytes 4 width ++ le_bytes 4 height
    ++ le_bytes 4 0 ++ le_bytes 4 0 ++ le_bytes 4 0 ++ le_bytes 4 0

/-- The method `ErawImage::save(path, data, width, height)`: the bytes
written to the file, `data` being the buffer as 32-bit words; `none` when the
loop does not end within one iteration per pixel. -/
def ErawImage.save (data : List Nat) (width height : Nat) : Option (List Nat) :=
  let n := (width * height) % 2 ^ 32
  (ErawImage.save_loop n (data.take n)).map
    (fun blocks => ErawImage.header width height ++ blocks.flatMap Block.bytes)

/-! ## ListBox (`src/list.cpp`)

A widget is its identity and its `active` flag; the geometry calls
(`resize`, `set_align`, `damage`) and the event handlers are left out. -/

/-- A widget: the identity of the object and its `active` flag. -/
structure Widget where
  id : Nat
  active : Bool
deriving DecidableEq, Repr

/-- The state of a `ListBox`: the children of `m_sizer`, in order, and the
member `m_selected`. -/
structure ListBox where
  children : List Widget
  m_selected : Nat
deriving DecidableEq, Repr

/-- A `ListBox` constructed without items. -/
def ListBox.init : ListBox :=
  { children := [], m_selected := 0 }

/-- Modelled from the spec: the child container of the widget hierarchy, whose
code (`Frame::child_at`, `Widget::set_active`) is not among the sources; the
call `child_at(index)->set_active(value)` sets the flag of the child at that
position. -/
def set_active_at : List Widget → Nat → Bool → List Widget
  | [], _, _ => []
  | w :: rest, 0, value => { w with active := value } :: rest
  | w :: rest, index + 1, value => w :: set_active_at rest index value

/-- Modelled from the spec: the child container of the widget hierarchy, whose
code (`Frame::remove`) is not among the sources; `remove(widget)` takes the
first child that is the object `widget` out of the children. -/
def remove_child : List Widget → Nat → List Widget
  | [], _ => []
  | w :: rest, widget => if w.id = widget then rest else w :: remove_child rest widget

/-- The method `ListBox::set_select(index)`. -/
def ListBox.set_select (b : ListBox) (index : Nat) : ListBox :=
  if b.m_selected ≠ index then
    if index < b.children.length then
      let children :=
        if b.children.length > b.m_selected then set_active_at b.children b.m_selected false
        else b.children
      let children :=
        if children.length > index then set_active_at children index true else children
      { children := children, m_selected := index }
    else b
  else b

/-- The method `ListBox::add_item(widget)`, that is `add_item_private`: the
widget is added after the present children (`m_sizer->add`), and the first
child of a list becomes the selected, active one. -/
def ListBox.add_item (b : ListBox) (widget : Widget) : ListBox :=
  let children := b.children ++ [widget]
  if children.length = 1 then
    { children := set_active_at children 0 true, m_selected := 0 }
  else { b with children := children }

/-- The method `ListBox::remove_item(widget)`; the argument of `set_select`
is converted to `uint32_t`. -/
def ListBox.remove_item (b : ListBox) (widget : Nat) : ListBox :=
  let b : ListBox := { b with children := remove_child b.children widget }
  if b.m_selected ≥ b.children.length then
    if b.children.length ≠ 0 then b.set_select ((b.children.length - 1) % 2 ^ 32)
    else { b with m_selected := 0 }
  else b

/-- The method `ListBox::clear()`: `m_sizer->remove_all()`. -/
def ListBox.clear (b : ListBox) : ListBox :=
  { b with children := [] }

/-- The operations of a `ListBox`. -/
inductive ListOp where
  | add_item (widget : Widget)
  | remove_item (widget : Nat)
  | set_select (index : Nat)
  | clear
deriving DecidableEq, Repr

/-- One operation on a `ListBox`. -/
def ListBox.apply (b : ListBox) : ListOp → ListBox
  | ListOp.add_item widget => b.add_item widget
  | ListOp.remove_item widget => b.remove_item widget
  | ListOp.set_select index => b.set_select index
  | ListOp.clear => b.clear

/-- A sequence of operations on a `ListBox` constructed without items. -/
def ListBox.run (ops : List ListOp) : ListBox :=
  ops.foldl ListBox.apply ListBox.init

/-! ## Concrete inputs -/

/-- A buffer of 35 equal pixels. -/
def solid35 : List Nat :=
  List.replicate 35 0xff0000ff

/-- A buffer of seven pixels with a run, single pixels and a pair. -/
def mixed7 : List Nat :=
  [1, 1, 1, 2, 3, 3, 4]

/-- The file `save` writes for `solid35` as a 35x1 image: the header and one
run block of 35 pixels, 34 bytes in all. -/
def solid35_file : List Nat :=
  ErawImage.header 35 1 ++ [0x23, 0x80, 0xff, 0x00, 0x00, 0xff]

/-- A file for a 1x1 image whose only block is a run of two pixels. -/
def overlong_run : List Nat :=
  ErawImage.header 1 1 ++ le_bytes 2 0x8002 ++ le_bytes 4 0xff0000ff

/-- A file for a 1x1 image whose only block is a literal block of two
pixels. -/
def overlong_literal : List Nat :=
  ErawImage.header 1 1 ++ le_bytes 2 2 ++ le_bytes 4 0xff0000ff ++ le_bytes 4 7

end egt

namespace mui

/-! ## Lemmas on the queue -/

theorem trim_backlog_append_singleton (q : List FlipJob) (j : FlipJob) (out : List String) :
    (FlipThread.trim_backlog (q ++ [j]) out).1 = [j] := by
  induction q generalizing out with
  | nil => rfl
  | cons a q ih =>
    cases q with
    | nil => rfl
    | cons b rest =>
      have h := ih (out ++ ["too many flip jobs queued"])
      simpa [FlipThread.trim_backlog] using h

theorem enqueue_queue (t : FlipThread) (j : FlipJob) : (t.enqueue j).m_queue = [j] := by
  simp [FlipThread.enqueue, trim_backlog_append_singleton]

theorem enqueue_executed (t : FlipThread) (j : FlipJob) :
    (t.enqueue j).executed = t.executed := rfl

theorem enqueue_worker (t : FlipThread) (j : FlipJob) :
    (t.enqueue j).worker = t.worker := rfl

theorem advance_index_eq_mod (i n : Nat) (h32 : n < UINT32_MOD) (hi : i < n) :
    advance_index i n = (i + 1) % n := by
  have hlt : i + 1 < UINT32_MOD := by omega
  unfold advance_index
  simp only [Nat.mod_eq_of_lt hlt]
  by_cases h : i + 1 < n
  · rw [Nat.mod_eq_of_lt h, if_neg (by omega)]
  · have hn : i + 1 = n := by omega
    rw [if_pos (by omega), hn, Nat.mod_self]

/-! ## Buffer rotation -/

/-- Claim C1. For a buffer count `N ≥ 1` (a `uint32_t`; `i < N` makes it
positive) and a current index `i < N`, one `schedule_flip()` of `KMSScreen`
and of `KMSOverlayScreen` leaves the index at `(i + 1) mod N`: it is `i + 1`
when `i + 1 < N`, and `0` otherwise. -/
theorem schedule_flip_index_cyclic (plane : plane_data) (i : Nat) (pool : FlipThread)
    (h32 : plane.buffer_count < UINT32_MOD) (hi : i < plane.buffer_count) :
    1 ≤ plane.buffer_count ∧
    (KMSScreen.schedule_flip ⟨plane, i⟩ pool).1.index = (i + 1) % plane.buffer_count ∧
    (KMSOverlayScreen.schedule_flip ⟨plane, i⟩ pool).1.index
      = (i + 1) % plane.buffer_count ∧
    (i + 1 < plane.buffer_count →
      (KMSScreen.schedule_flip ⟨plane, i⟩ pool).1.index = i + 1 ∧
      (KMSOverlayScreen.schedule_flip ⟨plane, i⟩ pool).1.index = i + 1) ∧
    (¬ i + 1 < plane.buffer_count →
      (KMSScreen.schedule_flip ⟨plane, i⟩ pool).1.index = 0 ∧
      (KMSOverlayScreen.schedule_flip ⟨plane, i⟩ pool).1.index = 0) := by
  have hk : (KMSScreen.schedule_flip ⟨plane, i⟩ pool).1.index
      = (i + 1) % plane.buffer_count := advance_index_eq_mod i _ h32 hi
  have ho : (KMSOverlayScreen.schedule_flip ⟨plane, i⟩ pool).1.index
      = (i + 1) % plane.buffer_count := advance_index_eq_mod i _ h32 hi
  refine ⟨by omega, hk, ho, ?_, ?_⟩
  · intro h
    rw [hk, ho, Nat.mod_eq_of_lt h]
    exact ⟨rfl, rfl⟩
  · intro h
    have hn : i + 1 = plane.buffer_count := by omega
    rw [hk, ho, hn, Nat.mod_self]
    exact ⟨rfl, rfl⟩

theorem schedule_flip_index_cyclic_witness :
    (KMSScreen.schedule_flip ⟨plane3, 2⟩ FlipThread.init).1.index = 0 ∧
    (KMSOverlayScreen.schedule_flip ⟨plane3, 1⟩ FlipThread.init).1.index = 2 :=
  ⟨((schedule_flip_index_cyclic plane3 2 FlipThread.init (by decide) (by decide)).2.2.2.2
      (by decide)).1,
   ((schedule_flip_index_cyclic plane3 1 FlipThread.init (by decide) (by decide)).2.2.2.1
      (by decide)).2⟩

/-- Claim C2, as it fails: on a plane with a single buffer (`N = 1`, one
address, index 0) the pointer `raw()` returns right after `schedule_flip()`
is the pointer of the buffer that this call submitted. -/
theorem raw_after_flip_single_buffer_same :
    1 ≤ plane1.buffer_count ∧ plane1.bufs.length = plane1.buffer_count ∧
    plane1.bufs.Nodup ∧ 0 < plane1.buffer_count ∧
    (KMSOverlayScreen.schedule_flip ⟨plane1, 0⟩ FlipThread.init).2.m_queue
      = [⟨plane1, 0⟩] ∧
    (FlipJob.mk plane1 0).buffer = some 4096 ∧
    (KMSOverlayScreen.schedule_flip ⟨plane1, 0⟩ FlipThread.init).1.raw = some 4096 := by
  decide

/-- Claim C2, amended. For a plane with `N ≥ 2` buffers at pairwise distinct
addresses and a valid current index, `schedule_flip()` submits the job of the
current buffer, and the pointer `raw()` returns right after the call differs
from the pointer of the submitted buffer. -/
theorem raw_after_flip_differs (plane : plane_data) (i : Nat) (pool : FlipThread)
    (hN : 2 ≤ plane.buffer_count) (h32 : plane.buffer_count < UINT32_MOD)
    (hlen : plane.bufs.length = plane.buffer_count) (hnd : plane.bufs.Nodup)
    (hi : i < plane.buffer_count) :
    ∃ submitted : FlipJob, ∃ a b : Nat,
      (KMSOverlayScreen.schedule_flip ⟨plane, i⟩ pool).2.m_queue.getLast? = some submitted ∧
      submitted.buffer = some a ∧
      (KMSOverlayScreen.schedule_flip ⟨plane, i⟩ pool).1.raw = some b ∧
      a ≠ b := by
  have hidx : (KMSOverlayScreen.schedule_flip ⟨plane, i⟩ pool).1.index
      = (i + 1) % plane.buffer_count := advance_index_eq_mod i _ h32 hi
  have hj : (i + 1) % plane.buffer_count < plane.bufs.length := by
    rw [hlen]
    exact Nat.mod_lt _ (by omega)
  have hi2 : i < plane.bufs.length := by omega
  have hne : i ≠ (i + 1) % plane.buffer_count := by
    by_cases h : i + 1 < plane.buffer_count
    · rw [Nat.mod_eq_of_lt h]
      omega
    · have hn : i + 1 = plane.buffer_count := by omega
      rw [hn, Nat.mod_self]
      omega
  refine ⟨⟨plane, i⟩, plane.bufs[i], plane.bufs[(i + 1) % plane.buffer_count], ?_, ?_, ?_, ?_⟩
  · simp [KMSOverlayScreen.schedule_flip, enqueue_queue]
  · simp [FlipJob.buffer, hi2]
  · have hraw : (KMSOverlayScreen.schedule_flip ⟨plane, i⟩ pool).1.raw
        = plane.bufs[(KMSOverlayScreen.schedule_flip ⟨plane, i⟩ pool).1.index]? := rfl
    rw [hraw, hidx]
    simp [hj]
  · intro h
    exact hne ((hnd.getElem_inj_iff).1 h)

theorem raw_after_flip_differs_witness :
    ∃ submitted : FlipJob, ∃ a b : Nat,
      (KMSOverlayScreen.schedule_flip ⟨plane3, 2⟩ FlipThread.init).2.m_queue.getLast?
        = some submitted ∧
      submitted.buffer = some a ∧
      (KMSOverlayScreen.schedule_flip ⟨plane3, 2⟩ FlipThread.init).1.raw = some b ∧
      a ≠ b :=
  raw_after_flip_differs plane3 2 FlipThread.init (by decide) (by decide) (by decide)
    (by decide) (by decide)

/-- Claim C3. The flip job that `schedule_flip()` enqueues (on either screen)
carries the screen's plane and the index `index()` returned before the call;
it is the job pending afterwards; running it calls `plane_flip` on that plane
with that index, which is the buffer `raw()` addressed before the call. -/
theorem schedule_flip_submits_current_index (s : KMSOverlayScreen) (k : KMSScreen)
    (pool : FlipThread) :
    (s.schedule_flip pool).2 = pool.enqueue ⟨s.m_plane, s.index⟩ ∧
    (s.schedule_flip pool).2.m_queue = [⟨s.m_plane, s.index⟩] ∧
    (k.schedule_flip pool).2 = pool.enqueue ⟨k.m_plane, k.index⟩ ∧
    (k.schedule_flip pool).2.m_queue = [⟨k.m_plane, k.index⟩] ∧
    (FlipJob.mk s.m_plane s.index).call = ⟨s.m_plane, s.index⟩ ∧
    (FlipJob.mk k.m_plane k.index).call = ⟨k.m_plane, k.index⟩ ∧
    (FlipJob.mk s.m_plane s.index).buffer = s.raw := by
  refine ⟨rfl, ?_, rfl, ?_, rfl, rfl, rfl⟩
  · simp [KMSOverlayScreen.schedule_flip, enqueue_queue, KMSOverlayScreen.index]
  · simp [KMSScreen.schedule_flip, enqueue_queue, KMSScreen.index]

/-! ## FlipThread: backlog and ordering -/

/-- Claim C4. After `FlipThread::enqueue(j)` the pending queue is a suffix of
the old queue followed by `j` (only the oldest jobs are dropped, the order of
the rest is kept), `j` is its last element, and at most one job is pending. -/
theorem enqueue_keeps_newest_suffix (t : FlipThread) (j : FlipJob) :
    (t.enqueue j).m_queue <:+ t.m_queue ++ [j] ∧
    (t.enqueue j).m_queue.getLast? = some j ∧
    (t.enqueue j).m_queue.length ≤ 1 := by
  rw [enqueue_queue]
  exact ⟨List.suffix_append _ _, rfl, le_refl _⟩

theorem submitted_cons (e : Event) (es : List Event) :
    Event.submitted (e :: es) = Event.submitted [e] ++ Event.submitted es := by
  cases e <;> rfl

theorem step_history_sublist (t : FlipThread) (e : Event) :
    List.Sublist (t.step e).history (t.history ++ Event.submitted [e]) := by
  cases e with
  | enqueue job =>
    have hq : List.Sublist (t.enqueue job).m_queue (t.m_queue ++ [job]) := by
      rw [enqueue_queue]
      exact (List.suffix_append _ _).sublist
    have h : (t.enqueue job).history
        = t.executed ++ t.worker.inflight ++ (t.enqueue job).m_queue := rfl
    show List.Sublist (t.enqueue job).history (t.history ++ [job])
    rw [h, FlipThread.history, List.append_assoc (t.executed ++ t.worker.inflight)]
    exact List.Sublist.append (List.Sublist.refl _) hq
  | workerLock =>
    show List.Sublist t.run_locked.history (t.history ++ [])
    rw [List.append_nil]
    unfold FlipThread.run_locked
    split
    · split
      · simp_all [FlipThread.history, WorkerPc.inflight]
      · split <;> simp_all [FlipThread.history, WorkerPc.inflight]
    · exact List.Sublist.refl _
  | workerRun =>
    show List.Sublist t.run_task.history (t.history ++ [])
    rw [List.append_nil]
    unfold FlipThread.run_task
    split
    · simp_all [FlipThread.history, WorkerPc.inflight]
    · exact List.Sublist.refl _
  | stop =>
    show List.Sublist t.request_stop.history (t.history ++ [])
    rw [List.append_nil]
    exact List.Sublist.refl _

theorem steps_history_sublist (es : List Event) (t : FlipThread) :
    List.Sublist (t.steps es).history (t.history ++ Event.submitted es) := by
  induction es generalizing t with
  | nil => simp [FlipThread.steps, Event.submitted]
  | cons e es ih =>
    have h1 : (t.steps (e :: es)) = (t.step e).steps es := rfl
    rw [h1, submitted_cons, ← List.append_assoc]
    exact (ih (t.step e)).trans
      (List.Sublist.append (step_history_sublist t e) (List.Sublist.refl _))

theorem executed_sublist_history (t : FlipThread) : List.Sublist t.executed t.history := by
  unfold FlipThread.history
  rw [List.append_assoc]
  exact List.sublist_append_left _ _

/-- Claim C5. For every interleaving of enqueue, worker and stop steps on a
fresh `FlipThread`, the jobs the worker has executed form a subsequence of
the jobs submitted: they appear in submission order, and no job is executed
more often than it was submitted. -/
theorem executed_subsequence_of_submitted (es : List Event) :
    List.Sublist (FlipThread.init.steps es).executed (Event.submitted es) ∧
    ∀ j : FlipJob,
      (FlipThread.init.steps es).executed.count j ≤ (Event.submitted es).count j := by
  have h : List.Sublist (FlipThread.init.steps es).executed (Event.submitted es) := by
    have h1 := steps_history_sublist es FlipThread.init
    have h2 : FlipThread.init.history = [] := rfl
    rw [h2, List.nil_append] at h1
    exact (executed_sublist_history _).trans h1
  exact ⟨h, fun j => h.count_le j⟩

theorem steps_append (t : FlipThread) (es fs : List Event) :
    t.steps (es ++ fs) = (t.steps es).steps fs := by
  simp [FlipThread.steps]

theorem enqueue_burst_executed (js : List FlipJob) (t : FlipThread) :
    (t.steps (js.map Event.enqueue)).executed = t.executed ∧
    (t.steps (js.map Event.enqueue)).worker = t.worker := by
  induction js generalizing t with
  | nil => exact ⟨rfl, rfl⟩
  | cons j js ih =>
    have h : t.steps ((j :: js).map Event.enqueue)
        = (t.enqueue j).steps (js.map Event.enqueue) := rfl
    rw [h]
    exact ih (t.enqueue j)

theorem enqueue_burst_queue (t : FlipThread) (js : List FlipJob) (h : js ≠ []) :
    (t.steps (js.map Event.enqueue)).m_queue = js.drop (js.length - 1) := by
  rcases List.eq_nil_or_concat js with hnil | ⟨front, j, hj⟩
  · exact absurd hnil h
  · subst hj
    rw [List.concat_eq_append, List.map_append, steps_append]
    have h1 : ((t.steps (front.map Event.enqueue)).steps ([j].map Event.enqueue))
        = (t.steps (front.map Event.enqueue)).enqueue j := rfl
    rw [h1, enqueue_queue]
    simp

theorem worker_step_history (t : FlipThread) (e : Event) (he : e.isWorker = true) :
    (t.step e).history = t.history ∧ t.executed <+: (t.step e).executed := by
  cases e with
  | enqueue job => simp [Event.isWorker] at he
  | stop => simp [Event.isWorker] at he
  | workerLock =>
    show t.run_locked.history = t.history ∧ t.executed <+: t.run_locked.executed
    unfold FlipThread.run_locked
    split
    · split
      · simp_all [FlipThread.history, WorkerPc.inflight]
      · split <;> simp_all [FlipThread.history, WorkerPc.inflight]
    · simp
  | workerRun =>
    show t.run_task.history = t.history ∧ t.executed <+: t.run_task.executed
    unfold FlipThread.run_task
    split
    · simp_all [FlipThread.history, WorkerPc.inflight]
    · simp

theorem worker_steps_history (ws : List Event) (t : FlipThread)
    (hws : ∀ e ∈ ws, e.isWorker = true) :
    (t.steps ws).history = t.history ∧ t.executed <+: (t.steps ws).executed := by
  induction ws generalizing t with
  | nil => exact ⟨rfl, List.prefix_refl _⟩
  | cons e ws ih =>
    have h1 : t.steps (e :: ws) = (t.step e).steps ws := rfl
    have he := worker_step_history t e (hws e (List.mem_cons_self _ _))
    have hr := ih (t.step e) (fun x hx => hws x (List.mem_cons_of_mem _ hx))
    rw [h1]
    exact ⟨hr.1.trans he.1, he.2.trans hr.2⟩

/-- Claim C6. After a burst of `K ≥ 2` jobs enqueued with no worker step in
between, from any state of the queue, the pending jobs are a suffix of the
last two jobs of the burst (in fact the last job alone), so every earlier job
has been dropped; and whatever the worker then executes, beyond a job it had
already taken before the burst, comes from that pending queue, in order. -/
theorem burst_keeps_only_latest (t : FlipThread) (js : List FlipJob) (ws : List Event)
    (hK : 2 ≤ js.length) (hws : ∀ e ∈ ws, e.isWorker = true) :
    (t.steps (js.map Event.enqueue)).m_queue <:+ js.drop (js.length - 2) ∧
    (t.steps (js.map Event.enqueue)).m_queue = js.drop (js.length - 1) ∧
    ∃ ys : List FlipJob,
      ((t.steps (js.map Event.enqueue)).steps ws).executed = t.executed ++ ys ∧
      ys <+: t.worker.inflight ++ (t.steps (js.map Event.enqueue)).m_queue := by
  have hne : js ≠ [] := by
    intro h
    rw [h] at hK
    simp at hK
  have hq := enqueue_burst_queue t js hne
  have hb := enqueue_burst_executed js t
  refine ⟨?_, hq, ?_⟩
  · rw [hq]
    have h2 : js.length - 1 = (js.length - 2) + 1 := by omega
    rw [h2, ← List.drop_drop]
    exact List.drop_suffix _ _
  · have hw := worker_steps_history ws (t.steps (js.map Event.enqueue)) hws
    obtain ⟨ys, hys⟩ := hw.2
    rw [hb.1] at hys
    refine ⟨ys, hys.symm, ?_⟩
    have hh := hw.1
    unfold FlipThread.history at hh
    rw [← hys, hb.1, hb.2, List.append_assoc, List.append_assoc, List.append_assoc] at hh
    have hc := List.append_cancel_left hh
    exact ⟨_, hc⟩

theorem burst_keeps_only_latest_witness :
    (FlipThread.init.steps (burst5.map Event.enqueue)).m_queue
      <:+ burst5.drop (burst5.length - 2) ∧
    (FlipThread.init.steps (burst5.map Event.enqueue)).m_queue
      = burst5.drop (burst5.length - 1) ∧
    ∃ ys : List FlipJob,
      ((FlipThread.init.steps (burst5.map Event.enqueue)).steps
          [Event.workerLock, Event.workerRun, Event.workerLock]).executed
        = FlipThread.init.executed ++ ys ∧
      ys <+: FlipThread.init.worker.inflight
        ++ (FlipThread.init.steps (burst5.map Event.enqueue)).m_queue :=
  burst_keeps_only_latest FlipThread.init burst5
    [Event.workerLock, Event.workerRun, Event.workerLock] (by decide) (by decide)

theorem exited_stays_exited (es : List Event) (t : FlipThread)
    (h : t.worker = WorkerPc.exited) :
    (t.steps es).executed = t.executed ∧ (t.steps es).worker = WorkerPc.exited := by
  induction es generalizing t with
  | nil => exact ⟨rfl, h⟩
  | cons e es ih =>
    have h1 : t.steps (e :: es) = (t.step e).steps es := rfl
    have h2 : (t.step e).executed = t.executed ∧ (t.step e).worker = WorkerPc.exited := by
      cases e with
      | enqueue job => exact ⟨rfl, h⟩
      | stop => exact ⟨rfl, h⟩
      | workerLock =>
        show t.run_locked.executed = t.executed ∧ t.run_locked.worker = WorkerPc.exited
        simp [FlipThread.run_locked, h]
      | workerRun =>
        show t.run_task.executed = t.executed ∧ t.run_task.worker = WorkerPc.exited
        simp [FlipThread.run_task, h]
    rw [h1]
    have h3 := ih (t.step e) h2.2
    exact ⟨h3.1.trans h2.1, h3.2⟩

/-- Claim C7. When the worker, at the check at the head of its loop, finds
`m_stop` set, it returns: the queue (empty or not) is left as it is, no job
is run by that iteration, and no job is run by any later step. -/
theorem stop_observed_runs_nothing (t : FlipThread) (es : List Event)
    (hpc : t.worker = WorkerPc.atCheck) (hstop : t.m_stop = true) :
    t.run_locked.m_queue = t.m_queue ∧
    t.run_locked.executed = t.executed ∧
    t.run_locked.worker = WorkerPc.exited ∧
    (t.run_locked.steps es).executed = t.executed ∧
    (t.run_locked.steps es).worker = WorkerPc.exited := by
  have h : t.run_locked = { t with worker := WorkerPc.exited } := by
    simp [FlipThread.run_locked, hpc, hstop]
  have h2 := exited_stays_exited es t.run_locked (by rw [h])
  rw [h] at h2 ⊢
  exact ⟨rfl, rfl, rfl, h2.1, h2.2⟩

theorem stop_observed_runs_nothing_witness :
    stopped_with_backlog.run_locked.m_queue = stopped_with_backlog.m_queue ∧
    stopped_with_backlog.run_locked.executed = stopped_with_backlog.executed ∧
    stopped_with_backlog.run_locked.worker = WorkerPc.exited ∧
    (stopped_with_backlog.run_locked.steps
        [Event.workerLock, Event.workerRun, Event.enqueue ⟨plane3, 2⟩, Event.workerLock,
          Event.workerRun]).executed = stopped_with_backlog.executed ∧
    (stopped_with_backlog.run_locked.steps
        [Event.workerLock, Event.workerRun, Event.enqueue ⟨plane3, 2⟩, Event.workerLock,
          Event.workerRun]).worker = WorkerPc.exited :=
  stop_observed_runs_nothing stopped_with_backlog _ (by decide) (by decide)

/-! ## Overlay allocation -/

theorem allocate_overlay_loop_cases (lib : libplanes) (size : Size) (format : Nat)
    (used : List Int) (idxs : List Int) :
    (∃ pre index post p, idxs = pre ++ index :: post ∧ index ∉ used ∧
      lib.plane_create2 DRM_PLANE_TYPE_OVERLAY index size.w size.h format
        NUM_OVERLAY_BUFFERS = some p ∧
      (∀ k ∈ pre, k ∈ used ∨
        lib.plane_create2 DRM_PLANE_TYPE_OVERLAY k size.w size.h format
          NUM_OVERLAY_BUFFERS = none) ∧
      KMSScreen.allocate_overlay_loop lib size format idxs none used
        = (some p, used ++ [index])) ∨
    ((∀ k ∈ idxs, k ∈ used ∨
        lib.plane_create2 DRM_PLANE_TYPE_OVERLAY k size.w size.h format
          NUM_OVERLAY_BUFFERS = none) ∧
      KMSScreen.allocate_overlay_loop lib size format idxs none used = (none, used)) := by
  induction idxs with
  | nil =>
    right
    exact ⟨fun k hk => absurd hk (List.not_mem_nil k), rfl⟩
  | cons index rest ih =>
    by_cases hu : index ∈ used
    · have hstep : KMSScreen.allocate_overlay_loop lib size format (index :: rest) none used
          = KMSScreen.allocate_overlay_loop lib size format rest none used := by
        simp [KMSScreen.allocate_overlay_loop, hu]
      rw [hstep]
      rcases ih with ⟨pre, i, post, p, hsplit, hi, hc, hpre, hr⟩ | ⟨hall, hr⟩
      · left
        refine ⟨index :: pre, i, post, p, by rw [hsplit]; rfl, hi, hc, ?_, hr⟩
        intro k hk
        rcases List.mem_cons.1 hk with rfl | hk
        · exact Or.inl hu
        · exact hpre k hk
      · right
        refine ⟨?_, hr⟩
        intro k hk
        rcases List.mem_cons.1 hk with rfl | hk
        · exact Or.inl hu
        · exact hall k hk
    · cases hc : lib.plane_create2 DRM_PLANE_TYPE_OVERLAY index size.w size.h format
          NUM_OVERLAY_BUFFERS with
      | some p =>
        left
        refine ⟨[], index, rest, p, rfl, hu, hc, ?_, ?_⟩
        · intro k hk
          exact absurd hk (List.not_mem_nil k)
        · simp [KMSScreen.allocate_overlay_loop, hu, hc]
      | none =>
        have hstep : KMSScreen.allocate_overlay_loop lib size format (index :: rest) none used
            = KMSScreen.allocate_overlay_loop lib size format rest none used := by
          simp [KMSScreen.allocate_overlay_loop, hu, hc]
        rw [hstep]
        rcases ih with ⟨pre, i, post, p, hsplit, hi, hci, hpre, hr⟩ | ⟨hall, hr⟩
        · left
          refine ⟨index :: pre, i, post, p, by rw [hsplit]; rfl, hi, hci, ?_, hr⟩
          intro k hk
          rcases List.mem_cons.1 hk with rfl | hk
          · exact Or.inr hc
          · exact hpre k hk
        · right
          refine ⟨?_, hr⟩
          intro k hk
          rcases List.mem_cons.1 hk with rfl | hk
          · exact Or.inr hc
          · exact hall k hk

theorem allocate_overlay_cases (lib : libplanes) (used : List Int) (size : Size)
    (format : Nat) :
    (∃ index p, 0 ≤ index ∧ index < 3 ∧ index ∉ used ∧
      lib.plane_create2 DRM_PLANE_TYPE_OVERLAY index size.w size.h format
        NUM_OVERLAY_BUFFERS = some p ∧
      (∀ k : Int, 0 ≤ k → k < index → k ∈ used ∨
        lib.plane_create2 DRM_PLANE_TYPE_OVERLAY k size.w size.h format
          NUM_OVERLAY_BUFFERS = none) ∧
      KMSScreen.allocate_overlay lib used size format
        = (some (lib.plane_set_pos (lib.plane_fb_map p) 0 0), used ++ [index])) ∨
    ((∀ k : Int, 0 ≤ k → k < 3 → k ∈ used ∨
        lib.plane_create2 DRM_PLANE_TYPE_OVERLAY k size.w size.h format
          NUM_OVERLAY_BUFFERS = none) ∧
      KMSScreen.allocate_overlay lib used size format = (none, used)) := by
  rcases allocate_overlay_loop_cases lib size format used [0, 1, 2] with
    ⟨pre, index, post, p, hsplit, hi, hc, hpre, hr⟩ | ⟨hall, hr⟩
  · left
    have hres : KMSScreen.allocate_overlay lib used size format
        = (some (lib.plane_set_pos (lib.plane_fb_map p) 0 0), used ++ [index]) := by
      simp [KMSScreen.allocate_overlay, hr]
    rcases pre with _ | ⟨a, _ | ⟨b, _ | ⟨c, pre⟩⟩⟩
    · simp at hsplit
      obtain ⟨h0, -⟩ := hsplit
      subst h0
      exact ⟨0, p, by omega, by omega, hi, hc, fun k h1 h2 => by omega, hres⟩
    · simp at hsplit
      obtain ⟨ha, h1, -⟩ := hsplit
      subst ha h1
      refine ⟨1, p, by omega, by omega, hi, hc, ?_, hres⟩
      intro k h1 h2
      have hk : k = 0 := by omega
      subst hk
      exact hpre 0 (by simp)
    · simp at hsplit
      obtain ⟨ha, hb, h2, -⟩ := hsplit
      subst ha hb h2
      refine ⟨2, p, by omega, by omega, hi, hc, ?_, hres⟩
      intro k h1 h2
      have hk : k = 0 ∨ k = 1 := by omega
      rcases hk with rfl | rfl
      · exact hpre 0 (by simp)
      · exact hpre 1 (by simp)
    · simp at hsplit
  · right
    refine ⟨?_, by simp [KMSScreen.allocate_overlay, hr]⟩
    intro k h1 h2
    have hk : k = 0 ∨ k = 1 ∨ k = 2 := by omega
    rcases hk with rfl | rfl | rfl
    · exact hall 0 (by simp)
    · exact hall 1 (by simp)
    · exact hall 2 (by simp)

theorem allocate_overlay_nodup (lib : libplanes) (used : List Int) (size : Size)
    (format : Nat) (h : used.Nodup) :
    (KMSScreen.allocate_overlay lib used size format).2.Nodup := by
  rcases allocate_overlay_cases lib used size format with
    ⟨index, p, -, -, hi, -, -, hr⟩ | ⟨-, hr⟩
  · rw [hr]
    exact List.Nodup.append h (List.nodup_singleton index)
      (by simpa [List.disjoint_singleton] using hi)
  · rw [hr]
    exact h

theorem allocate_overlays_nodup (calls : List AllocCall) (used : List Int)
    (h : used.Nodup) : (KMSScreen.allocate_overlays used calls).Nodup := by
  induction calls generalizing used with
  | nil => exact h
  | cons c cs ih =>
    have hn := allocate_overlay_nodup c.lib used c.size c.format h
    unfold KMSScreen.allocate_overlays
    split
    · next hp =>
      rw [hp] at hn
      exact ih _ hn
    · next hp =>
      rw [hp] at hn
      exact hn

/-- Claim C8. After every sequence of `allocate_overlay` calls, whatever the
plane-creation call of the display library answers, the registry of used
overlay indices has no duplicate, it has none after one more call, and a
successful call appends to the registry one index that was not in it before;
so the indices of the successful allocations, which the registry lists in
order, are pairwise distinct. -/
theorem allocate_overlay_registry_distinct (calls : List AllocCall) (c : AllocCall) :
    (KMSScreen.allocate_overlays [] calls).Nodup ∧
    (KMSScreen.allocate_overlay c.lib (KMSScreen.allocate_overlays [] calls)
      c.size c.format).2.Nodup ∧
    ∀ plane used1,
      KMSScreen.allocate_overlay c.lib (KMSScreen.allocate_overlays [] calls)
        c.size c.format = (some plane, used1) →
      ∃ index, index ∉ KMSScreen.allocate_overlays [] calls ∧
        used1 = KMSScreen.allocate_overlays [] calls ++ [index] := by
  have h := allocate_overlays_nodup calls [] List.nodup_nil
  refine ⟨h, allocate_overlay_nodup _ _ _ _ h, ?_⟩
  intro plane used1 hr
  rcases allocate_overlay_cases c.lib (KMSScreen.allocate_overlays [] calls) c.size c.format
    with ⟨index, p, -, -, hi, -, -, hr2⟩ | ⟨-, hr2⟩
  · rw [hr2] at hr
    exact ⟨index, hi, (Prod.mk.inj hr).2.symm⟩
  · rw [hr2] at hr
    exact absurd (Prod.mk.inj hr).1 (by simp)

theorem allocate_overlay_registry_distinct_witness :
    ∃ index, index ∉ KMSScreen.allocate_overlays []
        [⟨lib_skip0, ⟨320, 240⟩, DRM_FORMAT_XRGB8888⟩] ∧
      ([1, 0] : List Int) = KMSScreen.allocate_overlays []
        [⟨lib_skip0, ⟨320, 240⟩, DRM_FORMAT_XRGB8888⟩] ++ [index] :=
  (allocate_overlay_registry_distinct [⟨lib_skip0, ⟨320, 240⟩, DRM_FORMAT_XRGB8888⟩]
    ⟨lib_ok, ⟨100, 50⟩, DRM_FORMAT_XRGB8888⟩).2.2
    { index := 0, bufs := [4096, 8192, 12288], buffer_count := 3, x := 0, y := 0 } [1, 0]
    (by decide)

/-- Claim C9, as it fails: with an empty registry, index 0 is the first index
not in use, yet when the display library refuses to create the plane for
index 0 the call succeeds with index 1 and marks 1, not 0. -/
theorem allocate_overlay_skips_refused_index :
    (0 : Int) ∉ ([] : List Int) ∧
    KMSScreen.allocate_overlay lib_skip0 [] ⟨320, 240⟩ DRM_FORMAT_XRGB8888
      = (some { index := 1, bufs := [4096, 8192, 12288], buffer_count := 3, x := 0, y := 0 },
         [1]) := by
  decide

/-- Claim C9, amended. A successful `allocate_overlay` uses the lowest index
of `0..2` that is not marked in use before the call and for which the
plane-creation call of the display library succeeds (every lower index is in
use or was refused); it returns that plane, mapped and positioned at (0,0),
and marks exactly that index used. -/
theorem allocate_overlay_first_accepted (lib : libplanes) (used : List Int) (size : Size)
    (format : Nat) (plane : plane_data) (used1 : List Int)
    (h : KMSScreen.allocate_overlay lib used size format = (some plane, used1)) :
    ∃ index p, 0 ≤ index ∧ index < 3 ∧ index ∉ used ∧
      lib.plane_create2 DRM_PLANE_TYPE_OVERLAY index size.w size.h format
        NUM_OVERLAY_BUFFERS = some p ∧
      (∀ k : Int, 0 ≤ k → k < index → k ∈ used ∨
        lib.plane_create2 DRM_PLANE_TYPE_OVERLAY k size.w size.h format
          NUM_OVERLAY_BUFFERS = none) ∧
      plane = lib.plane_set_pos (lib.plane_fb_map p) 0 0 ∧
      used1 = used ++ [index] := by
  rcases allocate_overlay_cases lib used size format with
    ⟨index, p, h0, h3, hi, hc, hlow, hr⟩ | ⟨-, hr⟩
  · rw [hr] at h
    have hp := Prod.mk.inj h
    exact ⟨index, p, h0, h3, hi, hc, hlow, (Option.some.inj hp.1).symm, hp.2.symm⟩
  · rw [hr] at h
    exact absurd (Prod.mk.inj h).1 (by simp)

theorem allocate_overlay_first_accepted_witness :
    ∃ index p, 0 ≤ index ∧ index < 3 ∧ index ∉ ([1] : List Int) ∧
      lib_skip0.plane_create2 DRM_PLANE_TYPE_OVERLAY index (Size.mk 320 240).w
        (Size.mk 320 240).h DRM_FORMAT_XRGB8888 NUM_OVERLAY_BUFFERS = some p ∧
      (∀ k : Int, 0 ≤ k → k < index → k ∈ ([1] : List Int) ∨
        lib_skip0.plane_create2 DRM_PLANE_TYPE_OVERLAY k (Size.mk 320 240).w
          (Size.mk 320 240).h DRM_FORMAT_XRGB8888 NUM_OVERLAY_BUFFERS = none) ∧
      ({ index := 2, bufs := [4096, 8192, 12288], buffer_count := 3, x := 0, y := 0 }
          : plane_data)
        = lib_skip0.plane_set_pos (lib_skip0.plane_fb_map p) 0 0 ∧
      ([1, 2] : List Int) = [1] ++ [index] :=
  allocate_overlay_first_accepted lib_skip0 [1] ⟨320, 240⟩ DRM_FORMAT_XRGB8888
    { index := 2, bufs := [4096, 8192, 12288], buffer_count := 3, x := 0, y := 0 } [1, 2]
    (by decide)

/-- Claim C10. The assertion of `allocate_overlay` fires exactly when every
index of `0..2` is already marked in use or is refused by the plane-creation
call of the display library; and when it fires the registry of used indices
is unchanged. -/
theorem allocate_overlay_fails_iff (lib : libplanes) (used : List Int) (size : Size)
    (format : Nat) :
    ((KMSScreen.allocate_overlay lib used size format).1 = none ↔
      ∀ index : Int, 0 ≤ index → index < 3 → index ∈ used ∨
        lib.plane_create2 DRM_PLANE_TYPE_OVERLAY index size.w size.h format
          NUM_OVERLAY_BUFFERS = none) ∧
    ((KMSScreen.allocate_overlay lib used size format).1 = none →
      (KMSScreen.allocate_overlay lib used size format).2 = used) := by
  rcases allocate_overlay_cases lib used size format with
    ⟨index, p, h0, h3, hi, hc, -, hr⟩ | ⟨hall, hr⟩
  · rw [hr]
    refine ⟨⟨fun h => absurd h (by simp), ?_⟩, fun h => absurd h (by simp)⟩
    intro hall
    rcases hall index h0 h3 with hu | hn
    · exact absurd hu hi
    · rw [hc] at hn
      exact absurd hn (by simp)
  · rw [hr]
    exact ⟨⟨fun _ => hall, fun _ => rfl⟩, fun _ => rfl⟩

/-- Claim C11. Starting from the empty registry, once three `allocate_overlay`
calls have succeeded the registry lists three distinct indices, exactly 0, 1
and 2, and every further call fails and leaves the registry as it is,
whatever the size, the format and the answers of the display library. -/
theorem allocate_overlay_exhausted_after_three (c1 c2 c3 c4 : AllocCall)
    (p1 p2 p3 : plane_data) (u1 u2 u3 : List Int)
    (h1 : KMSScreen.allocate_overlay c1.lib [] c1.size c1.format = (some p1, u1))
    (h2 : KMSScreen.allocate_overlay c2.lib u1 c2.size c2.format = (some p2, u2))
    (h3 : KMSScreen.allocate_overlay c3.lib u2 c3.size c3.format = (some p3, u3)) :
    u3.length = 3 ∧ u3.Nodup ∧ (∀ index : Int, index ∈ u3 ↔ 0 ≤ index ∧ index < 3) ∧
    KMSScreen.allocate_overlay c4.lib u3 c4.size c4.format = (none, u3) := by
  rcases allocate_overlay_cases c1.lib [] c1.size c1.format with
    ⟨i1, q1, a1, b1, n1, -, -, r1⟩ | ⟨-, r1⟩
  swap
  · rw [r1] at h1
    exact absurd (Prod.mk.inj h1).1 (by simp)
  rw [r1] at h1
  have e1 : u1 = [i1] := by simpa using (Prod.mk.inj h1).2.symm
  subst e1
  rcases allocate_overlay_cases c2.lib [i1] c2.size c2.format with
    ⟨i2, q2, a2, b2, n2, -, -, r2⟩ | ⟨-, r2⟩
  swap
  · rw [r2] at h2
    exact absurd (Prod.mk.inj h2).1 (by simp)
  rw [r2] at h2
  have e2 : u2 = [i1, i2] := by simpa using (Prod.mk.inj h2).2.symm
  subst e2
  rcases allocate_overlay_cases c3.lib [i1, i2] c3.size c3.format with
    ⟨i3, q3, a3, b3, n3, -, -, r3⟩ | ⟨-, r3⟩
  swap
  · rw [r3] at h3
    exact absurd (Prod.mk.inj h3).1 (by simp)
  rw [r3] at h3
  have e3 : u3 = [i1, i2, i3] := by simpa using (Prod.mk.inj h3).2.symm
  subst e3
  simp only [List.mem_singleton, List.mem_cons, List.not_mem_nil, or_false, not_or] at n2 n3
  have hmem : ∀ index : Int, index ∈ [i1, i2, i3] ↔ 0 ≤ index ∧ index < 3 := by
    intro index
    simp only [List.mem_cons, List.mem_singleton, List.not_mem_nil, or_false]
    omega
  refine ⟨rfl, ?_, hmem, ?_⟩
  · simp only [List.nodup_cons, List.mem_cons, List.mem_singleton, List.not_mem_nil,
      List.nodup_nil, or_false, not_or, and_true, not_false_eq_true]
    omega
  · rcases allocate_overlay_cases c4.lib [i1, i2, i3] c4.size c4.format with
      ⟨i4, q4, a4, b4, n4, -, -, -⟩ | ⟨-, r4⟩
    · exact absurd ((hmem i4).2 ⟨a4, b4⟩) n4
    · exact r4

theorem allocate_overlay_exhausted_after_three_witness :
    ([1, 0, 2] : List Int).length = 3 ∧ ([1, 0, 2] : List Int).Nodup ∧
    (∀ index : Int, index ∈ ([1, 0, 2] : List Int) ↔ 0 ≤ index ∧ index < 3) ∧
    KMSScreen.allocate_overlay lib_ok [1, 0, 2] (Size.mk 64 64) DRM_FORMAT_XRGB8888
      = (none, [1, 0, 2]) :=
  allocate_overlay_exhausted_after_three
    ⟨lib_skip0, ⟨320, 240⟩, DRM_FORMAT_XRGB8888⟩ ⟨lib_ok, ⟨100, 50⟩, DRM_FORMAT_XRGB8888⟩
    ⟨lib_ok, ⟨32, 32⟩, DRM_FORMAT_XRGB8888⟩ ⟨lib_ok, ⟨64, 64⟩, DRM_FORMAT_XRGB8888⟩
    { index := 1, bufs := [4096, 8192, 12288], buffer_count := 3, x := 0, y := 0 }
    { index := 0, bufs := [4096, 8192, 12288], buffer_count := 3, x := 0, y := 0 }
    { index := 2, bufs := [4096, 8192, 12288], buffer_count := 3, x := 0, y := 0 }
    [1] [1, 0] [1, 0, 2] (by decide) (by decide) (by decide)

/-! ## Index validity and rotation -/

theorem create_index_zero (env : drm_env) (lib : libplanes) (primary : Bool)
    (uninit : plane_data) (s : KMSScreen)
    (h : KMSScreen.create env lib primary uninit = some s) : s.m_index = 0 := by
  unfold KMSScreen.create at h
  simp only at h
  split at h
  · exact absurd h (by simp)
  · split at h
    · exact absurd h (by simp)
    · split at h
      · exact absurd h (by simp)
      · split at h
        · split at h
          · exact absurd h (by simp)
          · rw [← Option.some.inj h]
        · rw [← Option.some.inj h]

theorem advance_index_lt (i n : Nat) (hn : 1 ≤ n) : advance_index i n < n := by
  unfold advance_index
  simp only
  split
  · omega
  · omega

theorem schedule_flips_plane (k : Nat) (s : KMSScreen) (pool : FlipThread) :
    (KMSScreen.schedule_flips k (s, pool)).1.m_plane = s.m_plane := by
  induction k with
  | zero => rfl
  | succ k ih => exact ih

theorem overlay_schedule_flips_plane (k : Nat) (s : KMSOverlayScreen) (pool : FlipThread) :
    (KMSOverlayScreen.schedule_flips k (s, pool)).1.m_plane = s.m_plane := by
  induction k with
  | zero => rfl
  | succ k ih => exact ih

theorem schedule_flips_index_lt (k : Nat) (s : KMSScreen) (pool : FlipThread)
    (hn : 1 ≤ s.m_plane.buffer_count) (hi : s.m_index < s.m_plane.buffer_count) :
    (KMSScreen.schedule_flips k (s, pool)).1.m_index < s.m_plane.buffer_count := by
  cases k with
  | zero => exact hi
  | succ k =>
    have hp := schedule_flips_plane k s pool
    have h : (KMSScreen.schedule_flips (k + 1) (s, pool)).1.m_index
        = advance_index (KMSScreen.schedule_flips k (s, pool)).1.m_index
            (KMSScreen.schedule_flips k (s, pool)).1.m_plane.buffer_count := rfl
    rw [h, hp]
    exact advance_index_lt _ _ hn

theorem overlay_schedule_flips_index_lt (k : Nat) (s : KMSOverlayScreen) (pool : FlipThread)
    (hn : 1 ≤ s.m_plane.buffer_count) (hi : s.m_index < s.m_plane.buffer_count) :
    (KMSOverlayScreen.schedule_flips k (s, pool)).1.m_index < s.m_plane.buffer_count := by
  cases k with
  | zero => exact hi
  | succ k =>
    have hp := overlay_schedule_flips_plane k s pool
    have h : (KMSOverlayScreen.schedule_flips (k + 1) (s, pool)).1.m_index
        = advance_index (KMSOverlayScreen.schedule_flips k (s, pool)).1.m_index
            (KMSOverlayScreen.schedule_flips k (s, pool)).1.m_plane.buffer_count := rfl
    rw [h, hp]
    exact advance_index_lt _ _ hn

/-- Claim C12. The current buffer index is a valid slot: it is 0 after the
constructor of `KMSOverlayScreen` and of `KMSScreen`; on a plane with
`N ≥ 1` buffers one `schedule_flip()` leaves an index below `N`; hence after
any number `k` of flips of a constructed screen `index() < N`. -/
theorem index_always_valid_slot (env : drm_env) (lib : libplanes) (primary : Bool)
    (uninit plane : plane_data) (pool : FlipThread) (k : Nat) :
    (KMSOverlayScreen.create plane).index = 0 ∧
    (∀ s, KMSScreen.create env lib primary uninit = some s → s.index = 0) ∧
    (∀ o : KMSOverlayScreen, 1 ≤ o.m_plane.buffer_count →
      (o.schedule_flip pool).1.index < o.m_plane.buffer_count) ∧
    (∀ s : KMSScreen, 1 ≤ s.m_plane.buffer_count →
      (s.schedule_flip pool).1.index < s.m_plane.buffer_count) ∧
    (1 ≤ plane.buffer_count →
      (KMSOverlayScreen.schedule_flips k (KMSOverlayScreen.create plane, pool)).1.index
        < plane.buffer_count) ∧
    (∀ s, KMSScreen.create env lib primary uninit = some s → 1 ≤ s.m_plane.buffer_count →
      (KMSScreen.schedule_flips k (s, pool)).1.index < s.m_plane.buffer_count) := by
  refine ⟨rfl, fun s h => create_index_zero env lib primary uninit s h,
    fun o h => advance_index_lt _ _ h, fun s h => advance_index_lt _ _ h, ?_, ?_⟩
  · intro h
    exact overlay_schedule_flips_index_lt k (KMSOverlayScreen.create plane) pool h h
  · intro s hs h
    have h0 : s.m_index = 0 := create_index_zero env lib primary uninit s hs
    exact schedule_flips_index_lt k s pool h (by omega)

theorem index_always_valid_slot_witness :
    (KMSScreen.schedule_flips 7 (screen_ok, FlipThread.init)).1.index
      < screen_ok.m_plane.buffer_count :=
  (index_always_valid_slot env_ok lib_ok true plane1 plane3 FlipThread.init 7).2.2.2.2.2
    screen_ok (by decide) (by decide)

/-- Claim C13. After `k` calls of `schedule_flip()` on a freshly constructed
`KMSScreen` whose plane has `N ≥ 1` buffers (`N` a `uint32_t`), `index()`
returns `k mod N`; after `N` flips it is back at its starting value 0. -/
theorem schedule_flips_index_mod (env : drm_env) (lib : libplanes) (primary : Bool)
    (uninit : plane_data) (s : KMSScreen) (pool : FlipThread) (k : Nat)
    (hs : KMSScreen.create env lib primary uninit = some s)
    (hN : 1 ≤ s.m_plane.buffer_count) (h32 : s.m_plane.buffer_count < UINT32_MOD) :
    (KMSScreen.schedule_flips k (s, pool)).1.index = k % s.m_plane.buffer_count ∧
    (KMSScreen.schedule_flips s.m_plane.buffer_count (s, pool)).1.index = s.index := by
  have h0 : s.m_index = 0 := create_index_zero env lib primary uninit s hs
  have hall : ∀ n, (KMSScreen.schedule_flips n (s, pool)).1.m_index
      = n % s.m_plane.buffer_count := by
    intro n
    induction n with
    | zero => rw [Nat.zero_mod]; exact h0
    | succ n ih =>
      have hp := schedule_flips_plane n s pool
      have h : (KMSScreen.schedule_flips (n + 1) (s, pool)).1.m_index
          = advance_index (KMSScreen.schedule_flips n (s, pool)).1.m_index
              (KMSScreen.schedule_flips n (s, pool)).1.m_plane.buffer_count := rfl
      rw [h, hp, ih, advance_index_eq_mod _ _ h32 (Nat.mod_lt _ (by omega))]
      exact Nat.mod_add_mod n _ 1
  refine ⟨hall k, ?_⟩
  show (KMSScreen.schedule_flips s.m_plane.buffer_count (s, pool)).1.m_index = s.m_index
  rw [hall, Nat.mod_self, h0]

theorem schedule_flips_index_mod_witness :
    (KMSScreen.schedule_flips 1 (screen_ok, FlipThread.init)).1.index = 1 ∧
    (KMSScreen.schedule_flips 2 (screen_ok, FlipThread.init)).1.index = 2 ∧
    (KMSScreen.schedule_flips 3 (screen_ok, FlipThread.init)).1.index = 0 :=
  ⟨(schedule_flips_index_mod env_ok lib_ok true plane1 screen_ok FlipThread.init 1
      (by decide) (by decide) (by decide)).1,
   (schedule_flips_index_mod env_ok lib_ok true plane1 screen_ok FlipThread.init 2
      (by decide) (by decide) (by decide)).1,
   (schedule_flips_index_mod env_ok lib_ok true plane1 screen_ok FlipThread.init 3
      (by decide) (by decide) (by decide)).1⟩

/-! ## One iteration of the worker loop -/

/-- Claim C14. One iteration of the worker loop, entered at its head with
`m_stop` clear: on a non-empty queue it takes out the front job, calls that
job and no other, and leaves the rest of the queue as it was, in order; on an
empty queue it calls nothing, changes nothing and stays waiting at the head
of the loop. -/
theorem run_iteration_pops_front (t : FlipThread) (hpc : t.worker = WorkerPc.atCheck)
    (hstop : t.m_stop = false) :
    (∀ job rest, t.m_queue = job :: rest →
      t.run_locked.worker = WorkerPc.running job ∧
      t.run_locked.executed = t.executed ∧
      t.run_iteration.m_queue = rest ∧
      t.run_iteration.executed = t.executed ++ [job] ∧
      t.run_iteration.worker = WorkerPc.atCheck ∧
      t.run_iteration.m_stop = false) ∧
    (t.m_queue = [] → t.run_locked = t ∧ t.run_iteration = t) := by
  constructor
  · intro job rest hq
    have h : t.run_locked = { t with m_queue := rest, worker := WorkerPc.running job } := by
      simp [FlipThread.run_locked, hpc, hstop, hq]
    unfold FlipThread.run_iteration
    rw [h]
    simp [FlipThread.run_task, hstop]
  · intro hq
    have h : t.run_locked = t := by
      simp [FlipThread.run_locked, hpc, hstop, hq]
    unfold FlipThread.run_iteration
    rw [h]
    exact ⟨rfl, by simp [FlipThread.run_task, hpc]⟩

theorem run_iteration_pops_front_witness :
    idle_with_backlog.run_iteration.m_queue = [⟨plane3, 1⟩] ∧
    idle_with_backlog.run_iteration.executed = idle_with_backlog.executed ++ [⟨plane3, 0⟩] :=
  ⟨((run_iteration_pops_front idle_with_backlog (by decide) (by decide)).1
      ⟨plane3, 0⟩ [⟨plane3, 1⟩] (by decide)).2.2.1,
   ((run_iteration_pops_front idle_with_backlog (by decide) (by decide)).1
      ⟨plane3, 0⟩ [⟨plane3, 1⟩] (by decide)).2.2.2.1⟩

/-! ## Plane count -/

theorem count_planes_loop_spec (type : Int) (planes : List kms_plane) (total : Nat)
    (h : total + planes.length < UINT32_MOD) :
    KMSScreen.count_planes_loop type planes total
      = total + planes.countP (fun p => decide (int_of_unsigned p.type = type)) := by
  induction planes generalizing total with
  | nil => simp [KMSScreen.count_planes_loop]
  | cons p rest ih =>
    simp only [List.length_cons] at h
    by_cases hp : int_of_unsigned p.type = type
    · have hlt : total + 1 < UINT32_MOD := by omega
      simp only [KMSScreen.count_planes_loop, hp, if_true, Nat.mod_eq_of_lt hlt]
      rw [ih (total + 1) (by omega), List.countP_cons_of_pos _ _ (by simp [hp])]
      omega
    · simp only [KMSScreen.count_planes_loop, hp, if_false]
      rw [ih total (by omega), List.countP_cons_of_neg _ _ (by simp [hp])]

theorem int_of_unsigned_small (v : Nat) (h : v < 2 ^ 31) : int_of_unsigned v = (v : Int) := by
  have h1 : v % UINT32_MOD = v := Nat.mod_eq_of_lt (by unfold UINT32_MOD; omega)
  unfold int_of_unsigned
  rw [h1, if_pos h]

/-- Claim C15. For a device with fewer than `2 ^ 32` planes (`num_planes` is
an `unsigned int`), `count_planes(t)` is the number of planes of the device's
list whose type, converted to `int`, equals `t`; it is at most `num_planes`;
and when the plane types are below `2 ^ 31` it is the number of planes whose
type is `t`. The function reads the device and returns the count only. -/
theorem count_planes_counts_type (m_device : kms_device) (t : Int)
    (h : m_device.num_planes < UINT32_MOD) :
    KMSScreen.count_planes m_device t
      = m_device.planes.countP (fun p => decide (int_of_unsigned p.type = t)) ∧
    KMSScreen.count_planes m_device t ≤ m_device.num_planes ∧
    ((∀ p ∈ m_device.planes, p.type < 2 ^ 31) →
      KMSScreen.count_planes m_device t
        = m_device.planes.countP (fun p => decide ((p.type : Int) = t))) := by
  have hc : KMSScreen.count_planes m_device t
      = m_device.planes.countP (fun p => decide (int_of_unsigned p.type = t)) := by
    unfold KMSScreen.count_planes
    rw [count_planes_loop_spec t m_device.planes 0 (by simpa [kms_device.num_planes] using h)]
    simp
  refine ⟨hc, ?_, ?_⟩
  · rw [hc]
    exact List.countP_le_length _
  · intro hsmall
    rw [hc]
    apply List.countP_congr
    intro p hp
    rw [int_of_unsigned_small p.type (hsmall p hp)]

theorem count_planes_counts_type_witness :
    KMSScreen.count_planes ⟨[⟨800, 480⟩], [⟨0⟩, ⟨1⟩, ⟨0⟩]⟩ 0 = 2 ∧
    KMSScreen.count_planes ⟨[⟨800, 480⟩], [⟨0⟩, ⟨1⟩, ⟨0⟩]⟩ 0
      ≤ (kms_device.mk [⟨800, 480⟩] [⟨0⟩, ⟨1⟩, ⟨0⟩]).num_planes :=
  ⟨(count_planes_counts_type ⟨[⟨800, 480⟩], [⟨0⟩, ⟨1⟩, ⟨0⟩]⟩ 0 (by decide)).1.trans
      (by decide),
   (count_planes_counts_type ⟨[⟨800, 480⟩], [⟨0⟩, ⟨1⟩, ⟨0⟩]⟩ 0 (by decide)).2.1⟩

end mui

namespace egt

/-! ## Lemmas on the image codec -/

theorem le_bytes_length (k v : Nat) : (le_bytes k v).length = k := by
  induction k generalizing v with
  | zero => rfl
  | succ k ih => simp [le_bytes, ih]

theorem le_value_le_bytes_two (v : Nat) (h : v < 65536) : le_value (le_bytes 2 v) = v := by
  simp only [le_bytes, le_value]
  omega

theorem le_value_le_bytes_four (v : Nat) (h : v < 2 ^ 32) : le_value (le_bytes 4 v) = v := by
  simp only [le_bytes, le_value]
  omega

theorem read_append (k : Nat) (xs rest : List Nat) (h : xs.length = k) :
    read k (xs ++ rest) = some (xs, rest) := by
  subst h
  simp [read]

theorem bytes_of_words_cons (w : Nat) (ws : List Nat) :
    bytes_of_words (w :: ws) = le_bytes 4 w ++ bytes_of_words ws := by
  simp [bytes_of_words]

theorem bytes_of_words_length (ws : List Nat) : (bytes_of_words ws).length = ws.length * 4 := by
  induction ws with
  | nil => rfl
  | cons w ws ih =>
    rw [bytes_of_words_cons, List.length_append, le_bytes_length, ih, List.length_cons]
    omega

theorem words_of_bytes_of_words (ws : List Nat) (h : ∀ w ∈ ws, w < 2 ^ 32) :
    words_of_bytes (bytes_of_words ws) = ws := by
  induction ws with
  | nil => rfl
  | cons w ws ih =>
    have hw : w < 2 ^ 32 := h w (List.mem_cons_self _ _)
    have hrest := ih (fun x hx => h x (List.mem_cons_of_mem _ hx))
    rw [bytes_of_words_cons]
    have e : le_bytes 4 w = [w % 256, w / 256 % 256, w / 256 / 256 % 256,
        w / 256 / 256 / 256 % 256] := rfl
    rw [e]
    simp only [List.cons_append, List.nil_append, words_of_bytes, hrest]
    congr 1
    simp only [le_value]
    omega

theorem words_of_bytes_replicate (c count : Nat) :
    words_of_bytes (List.replicate (count * 4) c)
      = List.replicate count (le_value [c, c, c, c]) := by
  induction count with
  | zero => rfl
  | succ count ih =>
    have e : (count + 1) * 4 = count * 4 + 1 + 1 + 1 + 1 := by omega
    rw [e]
    simp only [List.replicate_succ, words_of_bytes, ih]

theorem word_eq_bytes (v : Nat) (h : v < 2 ^ 32) :
    v % 256 + 256 * (v / 256 % 256 + 256 * (v / 65536 % 256 + 256 * (v / 16777216 % 256 + 256 * 0)))
      = v := by
  omega

theorem memset32_eq_replicate (value count : Nat) (h : value < 2 ^ 32) :
    ErawImage.memset32 value count = List.replicate count value := by
  unfold ErawImage.memset32
  simp only
  split
  · next heq =>
    rw [words_of_bytes_replicate]
    congr 1
    have hd := word_eq_bytes value h
    rw [← heq.2.2, ← heq.2.1, ← heq.1] at hd
    exact hd
  · rfl

theorem or_flag (s : Nat) (h : s < 0x8000) : s ||| 0x8000 = 0x8000 + s := by
  have h1 := Nat.mul_add_lt_is_or (show s < 2 ^ 15 from h) 1
  rw [Nat.or_comm]
  simpa using h1.symm

theorem and_flag_eq_zero_iff (x : Nat) : x &&& 0x8000 = 0 ↔ x.testBit 15 = false := by
  constructor
  · intro h
    have h1 : (x &&& 0x8000).testBit 15 = false := by rw [h]; simp
    rw [Nat.testBit_and] at h1
    have h2 : Nat.testBit 0x8000 15 = true := by decide
    rw [h2] at h1
    simpa using h1
  · intro h
    apply Nat.eq_of_testBit_eq
    intro j
    rw [Nat.testBit_and, Nat.zero_testBit]
    by_cases hj : j = 15
    · subst hj
      rw [h]
      rfl
    · have h2 : Nat.testBit 0x8000 j = false := by
        have := @Nat.testBit_two_pow 15 j
        rw [show (0x8000 : Nat) = 2 ^ 15 from rfl, this]
        simp
        omega
      rw [h2]
      simp

theorem and_flag_small (s : Nat) (h : s < 0x8000) : s &&& 0x8000 = 0 :=
  (and_flag_eq_zero_iff s).2 (Nat.testBit_lt_two_pow (show s < 2 ^ 15 from h))

theorem and_flag_set (s : Nat) (h : s < 0x8000) : (0x8000 + s) &&& 0x8000 ≠ 0 := by
  intro h0
  have h1 := (and_flag_eq_zero_iff _).1 h0
  have h2 := Nat.testBit_two_pow_add_eq s 15
  rw [show (2 : Nat) ^ 15 = 0x8000 from rfl, h1,
    Nat.testBit_lt_two_pow (show s < 2 ^ 15 from h)] at h2
  simp at h2

theorem and_mask_flagged (s : Nat) (h : s < 0x8000) : (0x8000 + s) &&& 0x7fff = s := by
  have h1 := Nat.and_pow_two_sub_one_eq_mod (0x8000 + s) 15
  rw [show (2 : Nat) ^ 15 - 1 = 0x7fff from rfl] at h1
  rw [h1]
  omega

theorem same_run_le (value : Nat) (l : List Nat) : ErawImage.same_run value l ≤ l.length := by
  induction l with
  | nil => simp [ErawImage.same_run]
  | cons p rest ih =>
    simp only [ErawImage.same_run, List.length_cons]
    split <;> omega

theorem same_run_take (value : Nat) (l : List Nat) :
    l.take (ErawImage.same_run value l) = List.replicate (ErawImage.same_run value l) value := by
  induction l with
  | nil => simp [ErawImage.same_run]
  | cons p rest ih =>
    simp only [ErawImage.same_run]
    split
    · next h =>
      rw [List.take_succ_cons, ih, List.replicate_succ, h]
    · simp

theorem next_same_block_spec (data : List Nat)
    (h : (ErawImage.next_same_block data).1 ≠ 0) :
    2 ≤ (ErawImage.next_same_block data).1 ∧ (ErawImage.next_same_block data).1 ≤ 0x7fff ∧
    (ErawImage.next_same_block data).1 ≤ data.length ∧
    data.take (ErawImage.next_same_block data).1
      = List.replicate (ErawImage.next_same_block data).1 (ErawImage.next_same_block data).2 := by
  have hle := same_run_le (data.headD 0) (data.take 0x7fff)
  have htk := same_run_take (data.headD 0) (data.take 0x7fff)
  rw [List.length_take] at hle
  unfold ErawImage.next_same_block at h ⊢
  simp only at h ⊢
  split at h
  · next hc =>
    rw [if_pos hc]
    have hmod : ErawImage.same_run (data.headD 0) (data.take 0x7fff) % 65536
        = ErawImage.same_run (data.headD 0) (data.take 0x7fff) := Nat.mod_eq_of_lt (by omega)
    simp only [hmod]
    refine ⟨hc, by omega, by omega, ?_⟩
    rw [← htk, List.take_take, Nat.min_eq_left (by omega)]
  · exact absurd rfl h

theorem diff_run_pos (l : List Nat) : 1 ≤ ErawImage.diff_run l := by
  match l with
  | [] => simp [ErawImage.diff_run]
  | [_] => simp [ErawImage.diff_run]
  | p :: q :: rest =>
    simp only [ErawImage.diff_run]
    split <;> omega

theorem diff_run_le (l : List Nat) (h : l ≠ []) : ErawImage.diff_run l ≤ l.length := by
  induction l with
  | nil => exact absurd rfl h
  | cons p rest ih =>
    cases rest with
    | nil => simp [ErawImage.diff_run]
    | cons q rest =>
      simp only [ErawImage.diff_run, List.length_cons]
      split
      · omega
      · have := ih (by simp)
        simp only [List.length_cons] at this
        omega

theorem next_diff_block_spec (data : List Nat) (h : data ≠ []) :
    1 ≤ ErawImage.next_diff_block data ∧ ErawImage.next_diff_block data ≤ 0x7fff ∧
    ErawImage.next_diff_block data ≤ data.length := by
  have hne : data.take 0x7fff ≠ [] := by
    cases data with
    | nil => exact absurd rfl h
    | cons p rest => simp
  have hle := diff_run_le (data.take 0x7fff) hne
  have hpos := diff_run_pos (data.take 0x7fff)
  rw [List.length_take] at hle
  unfold ErawImage.next_diff_block
  rw [Nat.mod_eq_of_lt (by omega)]
  omega

theorem save_loop_spec (fuel : Nat) (data : List Nat) (h : data.length ≤ fuel) :
    ∃ blocks, ErawImage.save_loop fuel data = some blocks ∧
      blocks.flatMap Block.pixels = data ∧
      ∀ b ∈ blocks, 1 ≤ b.length ∧ b.length ≤ 0x7fff ∧ b.pixels.length = b.length ∧
        (b.isRun = true → 2 ≤ b.length) := by
  induction fuel generalizing data with
  | zero =>
    have hd : data = [] := List.eq_nil_of_length_eq_zero (by omega)
    subst hd
    exact ⟨[], by simp [ErawImage.save_loop], rfl, fun b hb => absurd hb (List.not_mem_nil b)⟩
  | succ fuel ih =>
    cases data with
    | nil => exact ⟨[], by simp [ErawImage.save_loop], rfl, fun b hb => absurd hb (List.not_mem_nil b)⟩
    | cons p rest =>
      by_cases hs : (ErawImage.next_same_block (p :: rest)).1 ≠ 0
      · obtain ⟨h2, h7, hlen, htake⟩ := next_same_block_spec (p :: rest) hs
        obtain ⟨blocks, hb, hpix, hwf⟩ :=
          ih ((p :: rest).drop (ErawImage.next_same_block (p :: rest)).1)
            (by rw [List.length_drop]; simp only [List.length_cons] at h ⊢; omega)
        refine ⟨Block.run (ErawImage.next_same_block (p :: rest)).1
          (ErawImage.next_same_block (p :: rest)).2 :: blocks, ?_, ?_, ?_⟩
        · simp only [ErawImage.save_loop, hs, if_true, ne_eq, not_false_eq_true, hb,
            Option.map_some']
        · rw [List.flatMap_cons, hpix]
          show List.replicate _ _ ++ _ = _
          rw [← htake, List.take_append_drop]
        · intro b hbm
          rcases List.mem_cons.1 hbm with rfl | hbm
          · exact ⟨by show 1 ≤ (ErawImage.next_same_block (p :: rest)).1; omega, h7,
              by simp [Block.pixels, Block.length], fun _ => h2⟩
          · exact hwf b hbm
      · have hs0 : (ErawImage.next_same_block (p :: rest)).1 = 0 := by
          by_contra hne
          exact hs hne
        obtain ⟨h1, h7, hlen⟩ := next_diff_block_spec (p :: rest) (by simp)
        obtain ⟨blocks, hb, hpix, hwf⟩ :=
          ih ((p :: rest).drop (ErawImage.next_diff_block (p :: rest)))
            (by rw [List.length_drop]; simp only [List.length_cons] at h ⊢; omega)
        have hd : ErawImage.next_diff_block (p :: rest) ≠ 0 := by omega
        refine ⟨Block.literal (ErawImage.next_diff_block (p :: rest))
          ((p :: rest).take (ErawImage.next_diff_block (p :: rest))) :: blocks, ?_, ?_, ?_⟩
        · simp only [ErawImage.save_loop, hs0, ne_eq, not_true_eq_false, if_false, hd,
            not_false_eq_true, if_true, hb, Option.map_some']
        · rw [List.flatMap_cons, hpix]
          show List.take _ _ ++ _ = _
          rw [List.take_append_drop]
        · intro b hbm
          rcases List.mem_cons.1 hbm with rfl | hbm
          · refine ⟨h1, h7, ?_, fun hr => absurd hr (by simp [Block.isRun])⟩
            show (List.take _ _).length = _
            rw [List.length_take]
            exact Nat.min_eq_left hlen
          · exact hwf b hbm

theorem load_file_loop_run_step (fuel : Nat) (rest out : List Nat) (n same value : Nat)
    (hlt : out.length < n) (hs : same < 0x8000) (hv : value < 2 ^ 32) :
    ErawImage.load_file_loop (fuel + 1)
        (le_bytes 2 (same ||| 0x8000) ++ le_bytes 4 value ++ rest) out n
      = ErawImage.load_file_loop fuel rest (out ++ List.replicate same value) n := by
  have hr2 : read 2 (le_bytes 2 (same ||| 0x8000) ++ le_bytes 4 value ++ rest)
      = some (le_bytes 2 (same ||| 0x8000), le_bytes 4 value ++ rest) := by
    rw [List.append_assoc]
    exact read_append 2 _ _ (le_bytes_length _ _)
  have hr4 : read 4 (le_bytes 4 value ++ rest) = some (le_bytes 4 value, rest) :=
    read_append 4 _ _ (le_bytes_length _ _)
  have hval : le_value (le_bytes 2 (same ||| 0x8000)) = 0x8000 + same := by
    rw [or_flag same hs]
    exact le_value_le_bytes_two _ (by omega)
  rw [ErawImage.load_file_loop]
  simp only [hlt, if_true, hr2, hval, and_flag_set same hs, ne_eq, not_false_eq_true, hr4,
    and_mask_flagged same hs, le_value_le_bytes_four value hv, memset32_eq_replicate value same hv]

theorem load_file_loop_literal_step (fuel : Nat) (rest out pixels : List Nat) (n diff : Nat)
    (hlt : out.length < n) (h1 : 1 ≤ diff) (hd : diff < 0x8000) (hlen : pixels.length = diff)
    (hv : ∀ w ∈ pixels, w < 2 ^ 32) :
    ErawImage.load_file_loop (fuel + 1) (le_bytes 2 diff ++ bytes_of_words pixels ++ rest) out n
      = ErawImage.load_file_loop fuel rest (out ++ pixels) n := by
  have hr2 : read 2 (le_bytes 2 diff ++ bytes_of_words pixels ++ rest)
      = some (le_bytes 2 diff, bytes_of_words pixels ++ rest) := by
    rw [List.append_assoc]
    exact read_append 2 _ _ (le_bytes_length _ _)
  have hrd : read (diff * 4) (bytes_of_words pixels ++ rest)
      = some (bytes_of_words pixels, rest) :=
    read_append _ _ _ (by rw [bytes_of_words_length, hlen])
  have hval : le_value (le_bytes 2 diff) = diff := le_value_le_bytes_two _ (by omega)
  have hne : diff ≠ 0 := by omega
  rw [ErawImage.load_file_loop]
  simp only [hlt, if_true, hr2, hval, and_flag_small diff hd, ne_eq, not_true_eq_false,
    if_false, hne, not_false_eq_true, hrd, words_of_bytes_of_words pixels hv]

theorem load_file_loop_done (fuel : Nat) (i out : List Nat) (n : Nat) (h : n ≤ out.length) :
    ErawImage.load_file_loop fuel i out n = (LoadStatus.complete, out) := by
  have hn : ¬ out.length < n := by omega
  cases fuel with
  | zero => simp [ErawImage.load_file_loop, hn]
  | succ fuel => simp [ErawImage.load_file_loop, hn]

theorem load_file_loop_blocks (blocks : List Block)
    (hwf : ∀ b ∈ blocks, 1 ≤ b.length ∧ b.length ≤ 0x7fff ∧ b.pixels.length = b.length)
    (hv : ∀ b ∈ blocks, ∀ w ∈ b.pixels, w < 2 ^ 32) (fuel : Nat) (out : List Nat) (n : Nat)
    (hfuel : blocks.length ≤ fuel)
    (hn : out.length + (blocks.flatMap Block.pixels).length = n) :
    ErawImage.load_file_loop fuel (blocks.flatMap Block.bytes) out n
      = (LoadStatus.complete, out ++ blocks.flatMap Block.pixels) := by
  induction blocks generalizing fuel out with
  | nil =>
    simp only [List.flatMap_nil, List.length_nil, Nat.add_zero] at hn
    rw [List.flatMap_nil, List.flatMap_nil, List.append_nil]
    exact load_file_loop_done fuel [] out n (by omega)
  | cons b bs ih =>
    obtain ⟨hb1, hb7, hblen⟩ := hwf b (List.mem_cons_self _ _)
    have hbv := hv b (List.mem_cons_self _ _)
    have hwf2 : ∀ x ∈ bs, 1 ≤ x.length ∧ x.length ≤ 0x7fff ∧ x.pixels.length = x.length :=
      fun x hx => hwf x (List.mem_cons_of_mem _ hx)
    have hv2 : ∀ x ∈ bs, ∀ w ∈ x.pixels, w < 2 ^ 32 :=
      fun x hx => hv x (List.mem_cons_of_mem _ hx)
    rw [List.flatMap_cons, List.length_append] at hn
    have hlt : out.length < n := by omega
    cases fuel with
    | zero => simp at hfuel
    | succ fuel =>
      simp only [List.length_cons, Nat.add_le_add_iff_right] at hfuel
      rw [List.flatMap_cons, List.flatMap_cons, ← List.append_assoc]
      cases b with
      | run same value =>
        have hs : same < 0x8000 := by
          have : same ≤ 0x7fff := hb7
          omega
        have hval : value < 2 ^ 32 := by
          apply hbv
          show value ∈ List.replicate same value
          have : 1 ≤ same := hb1
          exact List.mem_replicate.2 ⟨by omega, rfl⟩
        show ErawImage.load_file_loop (fuel + 1)
          (le_bytes 2 (same ||| 0x8000) ++ le_bytes 4 value ++ bs.flatMap Block.bytes) out n = _
        rw [load_file_loop_run_step fuel _ out n same value hlt hs hval]
        exact ih hwf2 hv2 fuel _ hfuel (by
          rw [List.length_append]
          simp only [Block.pixels] at hn
          omega)
      | literal diff pixels =>
        have hd : diff < 0x8000 := by
          have : diff ≤ 0x7fff := hb7
          omega
        have h1 : 1 ≤ diff := hb1
        have hlen : pixels.length = diff := hblen
        show ErawImage.load_file_loop (fuel + 1)
          (le_bytes 2 diff ++ bytes_of_words pixels ++ bs.flatMap Block.bytes) out n = _
        rw [load_file_loop_literal_step fuel _ out pixels n diff hlt h1 hd hlen hbv]
        exact ih hwf2 hv2 fuel _ hfuel (by
          rw [List.length_append]
          simp only [Block.pixels] at hn
          omega)

theorem block_bytes_length_pos (b : Block) : 1 ≤ b.bytes.length := by
  cases b <;> simp [Block.bytes, le_bytes_length]
  omega

theorem blocks_length_le_bytes (blocks : List Block) :
    blocks.length ≤ (blocks.flatMap Block.bytes).length := by
  induction blocks with
  | nil => simp
  | cons b bs ih =>
    have := block_bytes_length_pos b
    rw [List.flatMap_cons, List.length_append, List.length_cons]
    omega

theorem load_file_run_header (width height : Nat) (body : List Nat)
    (hw : width < 2 ^ 32) (hh : height < 2 ^ 32) :
    ErawImage.load_file_run (some (ErawImage.header width height ++ body))
      = ⟨(ErawImage.load_file_loop body.length body [] ((width * height) % 2 ^ 32)).1,
          width, height,
          (ErawImage.load_file_loop body.length body [] ((width * height) % 2 ^ 32)).2⟩ := by
  have hm : le_value (List.take 4 (ErawImage.header width height ++ body))
      = ErawImage.egt_magic := by
    simp only [ErawImage.header, le_bytes, List.cons_append, List.nil_append, List.take,
      le_value, ErawImage.egt_magic]
  have hd : List.drop 4 (ErawImage.header width height ++ body)
      = le_bytes 4 width ++ (le_bytes 4 height ++ (le_bytes 4 0 ++ (le_bytes 4 0 ++
          (le_bytes 4 0 ++ (le_bytes 4 0 ++ body))))) := by
    simp only [ErawImage.header, le_bytes, List.cons_append, List.nil_append, List.drop]
    rfl
  unfold ErawImage.load_file_run
  simp only [hm, ne_eq, not_true_eq_false, if_false, hd,
    read_append 4 _ _ (le_bytes_length 4 _), le_value_le_bytes_four width hw,
    le_value_le_bytes_four height hh]

/-! ## Fuel of the loops

More fuel than the length of the input changes no result: the loops end
before the fuel does. -/

theorem read_some_length (k : Nat) (i x r : List Nat) (h : read k i = some (x, r)) :
    r.length + k = i.length := by
  unfold read at h
  split at h
  · next hk =>
    have h2 := (Prod.mk.inj (Option.some.inj h)).2
    rw [← h2, List.length_drop]
    omega
  · exact absurd h (by simp)

theorem readw_some_length (k : Nat) (i r : List Nat) (v : Nat)
    (h : ErawImage.readw k i = some (v, r)) : r.length + k = i.length := by
  unfold ErawImage.readw at h
  split at h
  · next hk =>
    have h2 := (Prod.mk.inj (Option.some.inj h)).2
    rw [← h2, List.length_drop]
    omega
  · exact absurd h (by simp)

theorem load_file_loop_fuel_succ (n fuel : Nat) :
    ∀ i out : List Nat, i.length ≤ fuel →
      ErawImage.load_file_loop (fuel + 1) i out n = ErawImage.load_file_loop fuel i out n := by
  induction fuel with
  | zero =>
    intro i out h
    have hi : i = [] := List.eq_nil_of_length_eq_zero (by omega)
    subst hi
    by_cases hlt : out.length < n <;> simp [ErawImage.load_file_loop, read, hlt]
  | succ fuel ih =>
    intro i out h
    rw [ErawImage.load_file_loop]
    conv_rhs => rw [ErawImage.load_file_loop]
    by_cases hlt : out.length < n
    · simp only [hlt, if_true]
      cases hr : read 2 i with
      | none => rfl
      | some p =>
        obtain ⟨b, i1⟩ := p
        have hl1 := read_some_length 2 i b i1 hr
        simp only
        split
        · cases hr4 : read 4 i1 with
          | none => rfl
          | some q =>
            obtain ⟨v, i2⟩ := q
            have hl2 := read_some_length 4 i1 v i2 hr4
            exact ih i2 _ (by omega)
        · split
          · cases hrd : read (le_value b * 4) i1 with
            | none => rfl
            | some q =>
              obtain ⟨d, i2⟩ := q
              have hl2 := read_some_length _ i1 d i2 hrd
              exact ih i2 _ (by omega)
          · exact ih i1 _ (by omega)
    · simp only [hlt, if_false]

theorem load_buf_loop_fuel_succ (n fuel : Nat) :
    ∀ buf out : List Nat, buf.length ≤ fuel →
      ErawImage.load_buf_loop (fuel + 1) buf out n = ErawImage.load_buf_loop fuel buf out n := by
  induction fuel with
  | zero =>
    intro buf out h
    have hi : buf = [] := List.eq_nil_of_length_eq_zero (by omega)
    subst hi
    by_cases hlt : out.length < n <;> simp [ErawImage.load_buf_loop, ErawImage.readw, hlt]
  | succ fuel ih =>
    intro buf out h
    rw [ErawImage.load_buf_loop]
    conv_rhs => rw [ErawImage.load_buf_loop]
    by_cases hlt : out.length < n
    · simp only [hlt, if_true]
      cases hr : ErawImage.readw 2 buf with
      | none => rfl
      | some p =>
        obtain ⟨block, b1⟩ := p
        have hl1 := readw_some_length 2 buf b1 block hr
        simp only
        split
        · cases hr4 : ErawImage.readw 4 b1 with
          | none => rfl
          | some q =>
            obtain ⟨v, b2⟩ := q
            have hl2 := readw_some_length 4 b1 b2 v hr4
            exact ih b2 _ (by omega)
        · split
          · cases hrd : read (block * 4) b1 with
            | none => rfl
            | some q =>
              obtain ⟨d, b2⟩ := q
              have hl2 := read_some_length _ b1 d b2 hrd
              exact ih b2 _ (by omega)
          · exact ih b1 _ (by omega)
    · simp only [hlt, if_false]

theorem load_file_loop_fuel (n k : Nat) (i out : List Nat) :
    ErawImage.load_file_loop (i.length + k) i out n
      = ErawImage.load_file_loop i.length i out n := by
  induction k with
  | zero => rfl
  | succ k ih =>
    rw [← ih, ← Nat.add_assoc]
    exact load_file_loop_fuel_succ n (i.length + k) i out (by omega)

theorem load_buf_loop_fuel (n k : Nat) (buf out : List Nat) :
    ErawImage.load_buf_loop (buf.length + k) buf out n
      = ErawImage.load_buf_loop buf.length buf out n := by
  induction k with
  | zero => rfl
  | succ k ih =>
    rw [← ih, ← Nat.add_assoc]
    exact load_buf_loop_fuel_succ n (buf.length + k) buf out (by omega)

theorem save_loop_fuel_succ (fuel : Nat) :
    ∀ data : List Nat, data.length ≤ fuel →
      ErawImage.save_loop (fuel + 1) data = ErawImage.save_loop fuel data := by
  induction fuel with
  | zero =>
    intro data h
    have hd : data = [] := List.eq_nil_of_length_eq_zero (by omega)
    subst hd
    simp [ErawImage.save_loop]
  | succ fuel ih =>
    intro data h
    cases data with
    | nil => simp [ErawImage.save_loop]
    | cons p rest =>
      simp only [List.length_cons] at h
      rw [ErawImage.save_loop]
      conv_rhs => rw [ErawImage.save_loop]
      by_cases hs : (ErawImage.next_same_block (p :: rest)).1 ≠ 0
      · obtain ⟨h2, -, hlen, -⟩ := next_same_block_spec (p :: rest) hs
        simp only [List.length_cons] at hlen
        simp only [hs, if_true, ne_eq, not_false_eq_true]
        rw [ih _ (by rw [List.length_drop]; simp only [List.length_cons]; omega)]
      · obtain ⟨h1, -, hlen⟩ := next_diff_block_spec (p :: rest) (by simp)
        simp only [List.length_cons] at hlen
        have hd : ErawImage.next_diff_block (p :: rest) ≠ 0 := by omega
        simp only [hs, if_false, hd, if_true, ne_eq, not_false_eq_true]
        rw [ih _ (by rw [List.length_drop]; simp only [List.length_cons]; omega)]

theorem save_loop_fuel (k : Nat) (data : List Nat) :
    ErawImage.save_loop (data.length + k) data = ErawImage.save_loop data.length data := by
  induction k with
  | zero => rfl
  | succ k ih =>
    rw [← ih, ← Nat.add_assoc]
    exact save_loop_fuel_succ (data.length + k) data (by omega)

/-! ## Codec: round trip, bounds and termination -/

theorem blocks_length_sum (blocks : List Block)
    (h : ∀ b ∈ blocks, b.pixels.length = b.length) :
    (blocks.map Block.length).sum = (blocks.flatMap Block.pixels).length := by
  induction blocks with
  | nil => rfl
  | cons b bs ih =>
    rw [List.map_cons, List.sum_cons, List.flatMap_cons, List.length_append,
      ih (fun x hx => h x (List.mem_cons_of_mem _ hx)), h b (List.mem_cons_self _ _)]

/-- Claim C16. Round trip of the codec: for a buffer of `width * height`
32-bit pixels (`width`, `height` and their product below `2 ^ 32`), `save`
ends and writes a byte stream on which the file loader succeeds and returns
an image of the same width and height with the same pixels. -/
theorem save_load_file_roundtrip (data : List Nat) (width height : Nat)
    (hw : width < 2 ^ 32) (hh : height < 2 ^ 32) (hwh : width * height < 2 ^ 32)
    (hlen : data.length = width * height) (hv : ∀ w ∈ data, w < 2 ^ 32) :
    ∃ bytes, ErawImage.save data width height = some bytes ∧
      ErawImage.load_file (some bytes) = some ⟨width, height, data⟩ := by
  have hn : (width * height) % 2 ^ 32 = data.length := by
    rw [Nat.mod_eq_of_lt hwh, hlen]
  obtain ⟨blocks, hs, hpix, hwf⟩ := save_loop_spec data.length data (le_refl _)
  have hsave : ErawImage.save data width height
      = some (ErawImage.header width height ++ blocks.flatMap Block.bytes) := by
    unfold ErawImage.save
    simp only [hn, List.take_length, hs, Option.map_some']
  refine ⟨_, hsave, ?_⟩
  have hloop := load_file_loop_blocks blocks
    (fun b hb => ⟨(hwf b hb).1, (hwf b hb).2.1, (hwf b hb).2.2.1⟩)
    (fun b hb w hwm => hv w (by
      rw [← hpix]
      exact List.mem_flatMap.2 ⟨b, hb, hwm⟩))
    (blocks.flatMap Block.bytes).length [] data.length (blocks_length_le_bytes blocks)
    (by rw [hpix]; simp)
  rw [hpix, List.nil_append] at hloop
  unfold ErawImage.load_file
  rw [load_file_run_header width height _ hw hh, hn, hloop]
  simp only [Loaded.surface, hlen, Nat.sub_self, List.replicate_zero, List.append_nil]
  rw [← hlen, List.take_length]

theorem save_load_file_roundtrip_witness :
    ∃ bytes, ErawImage.save mixed7 7 1 = some bytes ∧
      ErawImage.load_file (some bytes) = some ⟨7, 1, mixed7⟩ :=
  save_load_file_roundtrip mixed7 7 1 (by decide) (by decide) (by decide) (by decide)
    (by decide)

/-- Claim C17, on the code: for a 1x1 image whose block announces two pixels,
both loaders store two words from the start of the one-pixel surface, one of
them at offset 1, past its end, and return the surface; this holds for a run
block and for a literal block. -/
theorem load_stores_past_end :
    ErawImage.load_file_run (some overlong_run)
      = ⟨LoadStatus.complete, 1, 1, [0xff0000ff, 0xff0000ff]⟩ ∧
    ErawImage.load_buf_run overlong_run overlong_run.length
      = ⟨LoadStatus.complete, 1, 1, [0xff0000ff, 0xff0000ff]⟩ ∧
    ErawImage.load_file_run (some overlong_literal)
      = ⟨LoadStatus.complete, 1, 1, [0xff0000ff, 7]⟩ ∧
    ErawImage.load_buf_run overlong_literal overlong_literal.length
      = ⟨LoadStatus.complete, 1, 1, [0xff0000ff, 7]⟩ ∧
    ¬ (ErawImage.load_file_run (some overlong_run)).stored.length ≤ 1 * 1 := by
  decide

/-- Claim C18, on the code: `save` writes 34 bytes for a 35x1 image of one
colour; the file loader returns the image from them, the in-memory loader
given the same bytes and their length returns `nullptr`, because its test
`end > data + len` compares the 35 pixels with the 34 bytes. -/
theorem load_buf_rejects_saved_image :
    ErawImage.save solid35 35 1 = some solid35_file ∧
    solid35_file.length = 34 ∧
    ErawImage.load_file (some solid35_file) = some ⟨35, 1, solid35⟩ ∧
    ErawImage.load_buf_run solid35_file solid35_file.length = ⟨LoadStatus.null, 35, 1, []⟩ ∧
    ErawImage.load_buf solid35_file solid35_file.length = none := by
  decide

/-- Claim C19. The loop of `save` ends within one iteration per pixel, for
every buffer of `width * height` pixels: the blocks it writes have lengths
from 1 to 0x7fff (run blocks at least 2), their pixels, put one after the
other, are exactly the buffer, their lengths sum to `width * height`, and the
run flag 0x8000 is set in the field of a block exactly for the run blocks,
the other bits being the length. -/
theorem save_loop_terminates (data : List Nat) (width height : Nat)
    (hwh : width * height < 2 ^ 32) (hlen : data.length = width * height) :
    ∃ blocks, ErawImage.save_loop (width * height) data = some blocks ∧
      ErawImage.save data width height
        = some (ErawImage.header width height ++ blocks.flatMap Block.bytes) ∧
      blocks.flatMap Block.pixels = data ∧
      (blocks.map Block.length).sum = width * height ∧
      ∀ b ∈ blocks, 1 ≤ b.length ∧ b.length ≤ 0x7fff ∧ (b.isRun = true → 2 ≤ b.length) ∧
        b.pixels.length = b.length ∧ b.length &&& 0x8000 = 0 ∧
        b.field &&& 0x7fff = b.length ∧ (b.field &&& 0x8000 ≠ 0 ↔ b.isRun = true) := by
  have hn : (width * height) % 2 ^ 32 = data.length := by
    rw [Nat.mod_eq_of_lt hwh, hlen]
  obtain ⟨blocks, hs, hpix, hwf⟩ := save_loop_spec data.length data (le_refl _)
  refine ⟨blocks, by rw [← hlen]; exact hs, ?_, hpix, ?_, ?_⟩
  · unfold ErawImage.save
    simp only [hn, List.take_length, hs, Option.map_some']
  · rw [blocks_length_sum blocks (fun b hb => (hwf b hb).2.2.1), hpix, hlen]
  · intro b hb
    obtain ⟨h1, h7, hp, hr⟩ := hwf b hb
    have hlt : b.length < 0x8000 := by omega
    refine ⟨h1, h7, hr, hp, and_flag_small _ hlt, ?_, ?_⟩
    · cases b with
      | run same value =>
        show (same ||| 0x8000) &&& 0x7fff = same
        rw [or_flag same hlt]
        exact and_mask_flagged same hlt
      | literal diff pixels =>
        show diff &&& 0x7fff = diff
        have h15 := Nat.and_pow_two_sub_one_eq_mod diff 15
        rw [show (2 : Nat) ^ 15 - 1 = 0x7fff from rfl] at h15
        rw [h15]
        exact Nat.mod_eq_of_lt hlt
    · cases b with
      | run same value =>
        have hf : (same ||| 0x8000) &&& 0x8000 ≠ 0 := by
          rw [or_flag same hlt]
          exact and_flag_set same hlt
        exact ⟨fun _ => rfl, fun _ => hf⟩
      | literal diff pixels =>
        have hf : diff &&& 0x8000 = 0 := and_flag_small diff hlt
        exact ⟨fun h => absurd hf h, fun h => absurd h (by simp [Block.isRun])⟩

theorem save_loop_terminates_witness :
    ∃ blocks, ErawImage.save_loop (7 * 1) mixed7 = some blocks ∧
      ErawImage.save mixed7 7 1
        = some (ErawImage.header 7 1 ++ blocks.flatMap Block.bytes) ∧
      blocks.flatMap Block.pixels = mixed7 ∧
      (blocks.map Block.length).sum = 7 * 1 ∧
      ∀ b ∈ blocks, 1 ≤ b.length ∧ b.length ≤ 0x7fff ∧ (b.isRun = true → 2 ≤ b.length) ∧
        b.pixels.length = b.length ∧ b.length &&& 0x8000 = 0 ∧
        b.field &&& 0x7fff = b.length ∧ (b.field &&& 0x8000 ≠ 0 ↔ b.isRun = true) :=
  save_loop_terminates mixed7 7 1 (by decide) (by decide)

/-- Claim C20, on the code: after `add_item(A)`, `add_item(B)` and
`remove_item(A)` the list holds `B` alone, the selected index is 0, and `B`,
the item at the selected index, is not active: no item of the list is. -/
theorem remove_selected_leaves_no_active_item :
    ListBox.run [ListOp.add_item ⟨1, false⟩, ListOp.add_item ⟨2, false⟩, ListOp.remove_item 1]
      = ⟨[⟨2, false⟩], 0⟩ ∧
    ListBox.run [ListOp.add_item ⟨1, false⟩, ListOp.add_item ⟨2, false⟩]
      = ⟨[⟨1, true⟩, ⟨2, false⟩], 0⟩ := by
  decide

/-! ## ListBox: the selected index -/

theorem set_active_at_length (l : List Widget) (index : Nat) (value : Bool) :
    (set_active_at l index value).length = l.length := by
  induction l generalizing index with
  | nil => rfl
  | cons w rest ih =>
    cases index with
    | zero => rfl
    | succ index => simp [set_active_at, ih]

theorem set_select_out_of_range (b : ListBox) (index : Nat)
    (h : b.children.length ≤ index) : b.set_select index = b := by
  have hn : ¬ index < b.children.length := by omega
  unfold ListBox.set_select
  by_cases hne : b.m_selected ≠ index
  · rw [if_pos hne, if_neg hn]
  · rw [if_neg hne]

theorem set_select_in_range (b : ListBox) (index : Nat) (hne : b.m_selected ≠ index)
    (h : index < b.children.length) :
    (b.set_select index).m_selected = index ∧
    (b.set_select index).children.length = b.children.length := by
  unfold ListBox.set_select
  rw [if_pos hne, if_pos h]
  refine ⟨rfl, ?_⟩
  simp only
  split <;> (try split) <;> simp [set_active_at_length]

theorem set_select_keeps_in_range (b : ListBox) (index : Nat)
    (h : 0 < b.children.length → b.m_selected < b.children.length) :
    0 < (b.set_select index).children.length →
      (b.set_select index).m_selected < (b.set_select index).children.length := by
  by_cases hne : b.m_selected ≠ index
  · by_cases hlt : index < b.children.length
    · obtain ⟨hm, hl⟩ := set_select_in_range b index hne hlt
      intro _
      rw [hm, hl]
      exact hlt
    · rw [set_select_out_of_range b index (by omega)]
      exact h
  · have hb : b.set_select index = b := by
      unfold ListBox.set_select
      rw [if_neg hne]
    rw [hb]
    exact h

theorem add_item_keeps_in_range (b : ListBox) (widget : Widget)
    (h : 0 < b.children.length → b.m_selected < b.children.length) :
    0 < (b.add_item widget).children.length →
      (b.add_item widget).m_selected < (b.add_item widget).children.length := by
  unfold ListBox.add_item
  simp only
  split
  · next h1 =>
    intro _
    simp only [set_active_at_length, h1]
    omega
  · next h1 =>
    intro _
    simp only [List.length_append, List.length_singleton] at h1 ⊢
    have := h (by omega)
    omega

theorem remove_item_in_range (b : ListBox) (widget : Nat) :
    0 < (b.remove_item widget).children.length →
      (b.remove_item widget).m_selected < (b.remove_item widget).children.length := by
  unfold ListBox.remove_item
  simp only
  split
  · next hge =>
    split
    · next hcount =>
      have hidx : (remove_child b.children widget).length - 1
          < (remove_child b.children widget).length := by omega
      have hmod : ((remove_child b.children widget).length - 1) % 2 ^ 32
          < (remove_child b.children widget).length :=
        Nat.lt_of_le_of_lt (Nat.mod_le _ _) hidx
      obtain ⟨hm, hl⟩ := set_select_in_range
        ({ b with children := remove_child b.children widget } : ListBox)
        (((remove_child b.children widget).length - 1) % 2 ^ 32)
        (by
          show b.m_selected ≠ _
          have hge2 : b.m_selected ≥ (remove_child b.children widget).length := hge
          omega)
        hmod
      intro _
      rw [hm, hl]
      exact hmod
    · next hcount =>
      intro hpos
      have h0 : (remove_child b.children widget).length = 0 := by
        by_contra hne
        exact hcount hne
      have hpos2 : 0 < (remove_child b.children widget).length := hpos
      omega
  · next hlt =>
    intro _
    have hlt2 : ¬ b.m_selected ≥ (remove_child b.children widget).length := hlt
    show b.m_selected < (remove_child b.children widget).length
    omega

theorem apply_keeps_in_range (b : ListBox) (op : ListOp)
    (h : 0 < b.children.length → b.m_selected < b.children.length) :
    0 < (b.apply op).children.length →
      (b.apply op).m_selected < (b.apply op).children.length := by
  cases op with
  | add_item widget => exact add_item_keeps_in_range b widget h
  | remove_item widget => exact remove_item_in_range b widget
  | set_select index => exact set_select_keeps_in_range b index h
  | clear =>
    intro hpos
    have h0 : (b.apply ListOp.clear).children.length = 0 := rfl
    omega

theorem foldl_apply_keeps_in_range (ops : List ListOp) (b : ListBox)
    (h : 0 < b.children.length → b.m_selected < b.children.length) :
    0 < (ops.foldl ListBox.apply b).children.length →
      (ops.foldl ListBox.apply b).m_selected < (ops.foldl ListBox.apply b).children.length := by
  induction ops generalizing b with
  | nil => exact h
  | cons op ops ih => exact ih (b.apply op) (apply_keeps_in_range b op h)

/-- Claim C21. After every sequence of `add_item`, `remove_item`, `set_select`
and `clear` on a `ListBox` that starts empty with selected index 0, a
non-empty list has its selected index below the number of items; and in any
state `set_select(i)` with `i` not below the item count changes nothing. -/
theorem selected_index_below_count (ops : List ListOp) (b : ListBox) (i : Nat) :
    ((ListBox.run ops).children ≠ [] →
      (ListBox.run ops).m_selected < (ListBox.run ops).children.length) ∧
    (b.children.length ≤ i → b.set_select i = b) := by
  refine ⟨?_, set_select_out_of_range b i⟩
  intro hne
  exact foldl_apply_keeps_in_range ops ListBox.init (fun h => absurd h (by decide))
    (List.length_pos.2 hne)

theorem selected_index_below_count_witness :
    (ListBox.run [ListOp.add_item ⟨1, false⟩, ListOp.add_item ⟨2, false⟩,
        ListOp.add_item ⟨3, false⟩, ListOp.set_select 2, ListOp.clear,
        ListOp.add_item ⟨4, false⟩, ListOp.add_item ⟨5, false⟩, ListOp.remove_item 4]).m_selected
      < (ListBox.run [ListOp.add_item ⟨1, false⟩, ListOp.add_item ⟨2, false⟩,
        ListOp.add_item ⟨3, false⟩, ListOp.set_select 2, ListOp.clear,
        ListOp.add_item ⟨4, false⟩, ListOp.add_item ⟨5, false⟩,
        ListOp.remove_item 4]).children.length ∧
    (ListBox.mk [⟨1, true⟩, ⟨2, false⟩] 0).set_select 2 = ListBox.mk [⟨1, true⟩, ⟨2, false⟩] 0 :=
  ⟨(selected_index_below_count _ ListBox.init 0).1 (by decide),
   (selected_index_below_count [] (ListBox.mk [⟨1, true⟩, ⟨2, false⟩] 0) 2).2 (by decide)⟩

end egt
